import Mathlib

/-!
Verification development for the tenzro-c0re content-addressed P2P store.

The definitions below are shallow embeddings of the TypeScript sources:
byte buffers become `List Nat` (each entry a byte value), SHA-256 is an
abstract parameter `sha256hex : List Nat → String` (both the splitter and
the validator call the very same function, which is all the proofs need),
timestamps are explicit `now : Nat` / `Int` parameters standing for the
calls to `Date.now()`, and thrown errors become `Except` values.
-/

namespace C0re

/-- Byte buffers (Node.js `Buffer`) are lists of byte values. -/
abbrev Bytes := List Nat

/-! ## Chunk manager (src/storage/chunk.ts, `DefaultChunkManager`) -/

/-- Embeds the `location` object attached to every chunk descriptor by
`DefaultChunkManager.split` (src/storage/chunk.ts lines 27-41). -/
structure StorageLoc where
  nodeId : String
  type : String
  storageType : String
  protocol : String
  endpoint : String
  region : String
  availability : Nat
  lastSeen : Nat
  health : Nat
  capacity : Nat
  used : Nat
  latency : Nat
  bandwidth : Nat
deriving DecidableEq

/-- The literal location value `split` builds for every chunk, with
`lastSeen: Date.now()` made explicit as the `now` argument. -/
def sourceLoc (now : Nat) : StorageLoc :=
  { nodeId := "", type := "source", storageType := "local", protocol := "file",
    endpoint := "", region := "", availability := 1, lastSeen := now, health := 1,
    capacity := 0, used := 0, latency := 0, bandwidth := 0 }

/-- Chunk descriptor (`ChunkInfo` of src/storage/types): index, size,
SHA-256 hex checksum, location, replica count. -/
structure ChunkInfo where
  index : Nat
  size : Nat
  checksum : String
  location : StorageLoc
  replicas : Nat
deriving DecidableEq

/-- Loop body of `DefaultChunkManager.split` (src/storage/chunk.ts lines
18-47): while data remains, take `size = min(chunkSize, remaining)` bytes,
hash them, emit a descriptor, advance.  The source loops forever when
`chunkSize = 0`; that unreachable case returns `[]` here and every theorem
assumes `1 ≤ chunkSize`. -/
def splitLoop (sha256hex : Bytes → String) (now chunkSize : Nat)
    (data : Bytes) (index : Nat) : List ChunkInfo :=
  if h : data = [] ∨ chunkSize = 0 then []
  else
    { index := index, size := min chunkSize data.length,
      checksum := sha256hex (data.take (min chunkSize data.length)),
      location := sourceLoc now, replicas := 0 } ::
      splitLoop sha256hex now chunkSize
        (data.drop (min chunkSize data.length)) (index + 1)
termination_by data.length
decreasing_by
  simp only [List.length_drop]
  have hd : data ≠ [] := fun hh => h (Or.inl hh)
  have hc : chunkSize ≠ 0 := fun hh => h (Or.inr hh)
  have hpos : 0 < data.length := List.length_pos.mpr hd
  omega

/-- `DefaultChunkManager.split(data, chunkSize)`: descriptors for the
chunks of `data`, indices starting at 0. -/
def split (sha256hex : Bytes → String) (now : Nat) (data : Bytes)
    (chunkSize : Nat) : List ChunkInfo :=
  splitLoop sha256hex now chunkSize data 0

/-- The successive `data.slice(offset, offset + size)` buffers that
`split` hashes (src/storage/chunk.ts line 20); the caller of `split` keeps
these chunk buffers. -/
def chunkSlices (chunkSize : Nat) (data : Bytes) : List Bytes :=
  if h : data = [] ∨ chunkSize = 0 then []
  else
    data.take (min chunkSize data.length) ::
      chunkSlices chunkSize (data.drop (min chunkSize data.length))
termination_by data.length
decreasing_by
  simp only [List.length_drop]
  have hd : data ≠ [] := fun hh => h (Or.inl hh)
  have hc : chunkSize ≠ 0 := fun hh => h (Or.inr hh)
  have hpos : 0 < data.length := List.length_pos.mpr hd
  omega

/-- `DefaultChunkManager.validate(chunk, info)` (src/storage/chunk.ts
lines 92-99): the byte length must equal `info.size` and the SHA-256 hex
digest must equal `info.checksum`. -/
def validate (sha256hex : Bytes → String) (chunk : Bytes) (info : ChunkInfo) :
    Bool :=
  if chunk.length ≠ info.size then false
  else sha256hex chunk == info.checksum

/-- Errors thrown by `DefaultChunkManager.combine`: the plain length
mismatch `Error`, or a `StorageError` with code CHUNK_VALIDATION_ERROR
carrying the offending descriptor index. -/
inductive CombineError
  | lengthMismatch
  | chunkValidation (chunkIndex : Nat)
deriving DecidableEq

/-- Tests whether a `combine` outcome is the CHUNK_VALIDATION_ERROR
failure (of any chunk index). -/
def isChunkValidationError : Except CombineError Bytes → Bool
  | .error (.chunkValidation _) => true
  | _ => false

/-- `DefaultChunkManager.combine(chunks, info)` (src/storage/chunk.ts
lines 55-87): reject on length mismatch, pair descriptors with buffers,
stable-sort the pairs by ascending `info.index` (JavaScript `sort` with
comparator `a.info.index - b.info.index` is a stable sort, so it computes
the same list as `insertionSort` by `≤` on the index), throw
CHUNK_VALIDATION_ERROR at the first pair failing `validate`, else
concatenate the buffers in sorted order. -/
def combine (sha256hex : Bytes → String) (chunks : List Bytes)
    (info : List ChunkInfo) : Except CombineError Bytes :=
  if chunks.length ≠ info.length then .error .lengthMismatch
  else
    let sortedPairs :=
      List.insertionSort (fun a b : ChunkInfo × Bytes => a.1.index ≤ b.1.index)
        (info.zip chunks)
    match sortedPairs.find? (fun p => !validate sha256hex p.2 p.1) with
    | some p => .error (.chunkValidation p.1.index)
    | none => .ok (sortedPairs.map Prod.snd).flatten

/-! ## DHT wire protocol (src/dht/protocol.ts, `DHTProtocol`) -/

/-- The five DHT message kinds of `DHTMessageType`. -/
inductive DHTMessageType
  | FIND_NODE
  | FIND_VALUE
  | STORE
  | DELETE
  | PING
deriving DecidableEq

/-- Embeds `DHTPayload`.  Fields that a malformed wire message may omit
are `Option`s; `none` stands for the JavaScript `undefined`. -/
structure DHTPayload where
  id : Option String
  timestamp : Int
  sender : Option String
  receiver : Option String
  key : Option String
  value : Option String
  data : Option String
deriving DecidableEq

/-- Embeds `DHTMessage`.  `dhtType` is optional because `validateMessage`
explicitly guards against its absence. -/
structure DHTMessage where
  type : Option String
  dhtType : Option DHTMessageType
  protocol : Option String
  version : Option String
  payload : DHTPayload
deriving DecidableEq

/-- JavaScript truthiness of an optional string: `undefined` and the
empty string are falsy, every other string is truthy. -/
def strTruthy : Option String → Bool
  | none => false
  | some s => s ≠ ""

/-- The regular expression `/^[0-9a-f]{64}$/` of `validateMessage`:
exactly 64 characters, each a decimal digit or a lowercase `a`-`f`. -/
def isHex64 (s : String) : Bool :=
  s.length == 64 && s.data.all (fun c => c.isDigit || ('a' ≤ c && c ≤ 'f'))

/-- `DHTProtocol.validateMessage` (src/dht/protocol.ts lines 95-120) with
`Date.now()` made explicit as `now`: reject when `dhtType`,
`payload.sender`, `protocol` or `version` is falsy; reject when
`payload.key` is truthy but not 64 lowercase-hex characters; reject when
the timestamp differs from `now` by more than five minutes. -/
def validateMessage (now : Int) (message : DHTMessage) : Bool :=
  if !message.dhtType.isSome || !strTruthy message.payload.sender
      || !strTruthy message.protocol || !strTruthy message.version then
    false
  else if strTruthy message.payload.key
      && !isHex64 (message.payload.key.getD "") then
    false
  else if (now - message.payload.timestamp).natAbs > 5 * 60 * 1000 then
    false
  else
    true

/-- `DHTProtocol.distance` (src/dht/protocol.ts lines 125-135) on the raw
32-byte values: byte-wise XOR.  Node ids are modelled as their 32-byte
big-endian decoding (`Buffer.from(key, "hex")`); hex decoding itself is
injective and is not re-modelled. -/
def distance (keyA keyB : List Nat) : List Nat :=
  List.zipWith (fun a b => a ^^^ b) keyA keyB

/-! ## K-bucket routing table (src/storage/p2p.ts, `KBucket`) -/

/-- Peer record as the routing table uses it: the id (32-byte decoded
form), the mutable `metadata.lastSeen` field, and `rest` standing for all
remaining `PeerInfo` fields (addresses, protocols, metrics, ...), which
`KBucket` copies around unchanged and never reads. -/
structure Peer where
  id : List Nat
  lastSeen : Nat
  rest : String
deriving DecidableEq

/-- A bucket: ordered peer list plus `lastUpdated` timestamp. -/
structure Bucket where
  peers : List Peer
  lastUpdated : Nat
deriving DecidableEq

/-- The routing table: node id, `kSize` (default 20) and the 256 buckets
built in the `KBucket` constructor. -/
structure KBucketState where
  nodeId : List Nat
  kSize : Nat
  buckets : List Bucket
deriving DecidableEq

/-- The freshly constructed table (`Array(256).fill(null).map(() =>
({peers: [], lastUpdated: Date.now()}))`). -/
def emptyKBucket (nodeId : List Nat) (kSize now : Nat) : KBucketState :=
  { nodeId := nodeId, kSize := kSize,
    buckets := List.replicate 256 { peers := [], lastUpdated := now } }

/-- Inner loop of `KBucket.getBucketIndex` (src/storage/p2p.ts lines
695-699): the first `j < 8` with bit `7 - j` of the byte set. -/
def firstSetBitFromTop (b : Nat) : Option Nat :=
  (List.range 8).find? (fun j => b.testBit (7 - j))

/-- Byte scan of `KBucket.getBucketIndex` (src/storage/p2p.ts lines
691-703): walk the distance bytes from the front, return `i * 8 + j` at
the first set bit, and `numberOfBuckets - 1 = 255` when the distance is
all zero. -/
def bucketIndexScan : List Nat → Nat → Nat
  | [], _ => 255
  | b :: rest, i =>
    if b ≠ 0 then
      match firstSetBitFromTop b with
      | some j => i * 8 + j
      | none => bucketIndexScan rest (i + 1)
    else bucketIndexScan rest (i + 1)

/-- `KBucket.getBucketIndex(peerId)`: scan of the XOR distance from the
node's own id. -/
def getBucketIndex (nodeId peerId : List Nat) : Nat :=
  bucketIndexScan (distance nodeId peerId) 0

/-- `KBucket.findStalePeer` (src/storage/p2p.ts lines 709-716): index of
the first peer whose `lastSeen` lies more than one hour before `now`. -/
def findStalePeer (now : Nat) (bucket : Bucket) : Option Nat :=
  bucket.peers.findIdx? (fun peer => now - peer.lastSeen > 60 * 60 * 1000)

/-- A peer record copied with `lastSeen` refreshed to `now`
(`{...peer, metadata: {...peer.metadata, lastSeen: Date.now()}}`). -/
def refreshPeer (now : Nat) (peer : Peer) : Peer :=
  { peer with lastSeen := now }

/-- `KBucket.addPeerToBucket` (src/storage/p2p.ts lines 584-607): append
the refreshed peer while below `kSize`; otherwise overwrite the first
stale peer, if any; otherwise leave the bucket unchanged. -/
def addPeerToBucket (kSize now : Nat) (bucket : Bucket) (peer : Peer) :
    Bucket :=
  if bucket.peers.length < kSize then
    { bucket with peers := bucket.peers ++ [refreshPeer now peer] }
  else
    match findStalePeer now bucket with
    | some staleIndex =>
        { bucket with peers := bucket.peers.set staleIndex (refreshPeer now peer) }
    | none => bucket

/-- `KBucket.addPeer` (src/storage/p2p.ts lines 612-633): pick the bucket
by XOR distance; overwrite an already-present peer in place with the
refreshed record, else defer to `addPeerToBucket`; finally refresh the
bucket's `lastUpdated`. -/
def addPeer (now : Nat) (kb : KBucketState) (peer : Peer) : KBucketState :=
  let bucketIndex := getBucketIndex kb.nodeId peer.id
  let bucket := kb.buckets.getD bucketIndex { peers := [], lastUpdated := 0 }
  let bucket' :=
    match bucket.peers.findIdx? (fun p => p.id == peer.id) with
    | some existingPeerIndex =>
        { bucket with
          peers := bucket.peers.set existingPeerIndex (refreshPeer now peer) }
    | none => addPeerToBucket kb.kSize now bucket peer
  { kb with buckets := kb.buckets.set bucketIndex { bucket' with lastUpdated := now } }

/-- `KBucket.removePeer` (src/storage/p2p.ts lines 638-647): splice the
peer out of its bucket and refresh `lastUpdated`; do nothing when it is
absent. -/
def removePeer (now : Nat) (kb : KBucketState) (peerId : List Nat) :
    KBucketState :=
  let bucketIndex := getBucketIndex kb.nodeId peerId
  let bucket := kb.buckets.getD bucketIndex { peers := [], lastUpdated := 0 }
  match bucket.peers.findIdx? (fun p => p.id == peerId) with
  | some peerIndex =>
      { kb with
        buckets := kb.buckets.set bucketIndex
          { peers := bucket.peers.eraseIdx peerIndex, lastUpdated := now } }
  | none => kb

/-- One routing-table operation, with the `Date.now()` of its execution. -/
inductive TableOp
  | add (now : Nat) (peer : Peer)
  | remove (now : Nat) (peerId : List Nat)

/-- Apply a sequence of `addPeer` / `removePeer` operations in order. -/
def applyOps (kb : KBucketState) : List TableOp → KBucketState
  | [] => kb
  | .add now peer :: rest => applyOps (addPeer now kb peer) rest
  | .remove now peerId :: rest => applyOps (removePeer now kb peerId) rest

/-- Structural invariant of the routing table: 256 buckets, no duplicate
peer ids within a bucket, at most `kSize` peers per bucket, and every
peer sits in the bucket its XOR distance selects. -/
def TableInv (kb : KBucketState) : Prop :=
  kb.buckets.length = 256 ∧
  ∀ i, ∀ hi : i < kb.buckets.length,
    (((kb.buckets.get ⟨i, hi⟩).peers.map Peer.id).Nodup ∧
     (kb.buckets.get ⟨i, hi⟩).peers.length ≤ kb.kSize ∧
     ∀ q ∈ (kb.buckets.get ⟨i, hi⟩).peers,
       getBucketIndex kb.nodeId q.id = i)

/-- An id occurs somewhere in the routing table. -/
def idInTable (kb : KBucketState) (id : List Nat) : Prop :=
  ∃ bucket ∈ kb.buckets, ∃ q ∈ bucket.peers, q.id = id

/-! ## Storage manager (src/storage/manager.ts, `StorageManager`)

The manager drives pluggable providers.  A provider is embedded as its
observable behaviour: `className` is the JavaScript `constructor.name`
(`"LocalStorageProvider"`, `"NetworkStorageProvider"`,
`"P2PStorageProvider"`), and the four methods the manager calls become
functions returning `Option` results, `none` standing for a thrown
error.  The manager's own code is translated statement by statement;
every `provider.store` invocation is additionally logged in a call trace
so that frame properties about provider state are expressible. -/

/-- Artifact metadata (`StorageMetadata` of src/storage/types) as the
manager reads it: id, size, chunk descriptors, timestamps, checksum,
storage type and replica count. -/
structure SMetadata where
  id : String
  size : Nat
  chunks : List ChunkInfo
  created : Nat
  modified : Nat
  checksum : String
  storageType : String
  replicas : Nat
deriving DecidableEq

/-- Behavioural model of a `StorageProvider` as used by the manager. -/
structure Provider where
  className : String
  storeFn : Bytes → Option SMetadata
  retrieveFn : String → Option Bytes
  validateChecksumFn : String → Bool
  getMetadataFn : String → Option SMetadata

/-- Storage options; only `replicas` is read by the manager
(`request.options?.replicas`). -/
structure SOptions where
  replicas : Option Nat
deriving DecidableEq

/-- The four storage strategies. -/
inductive StorageStrategy
  | localOnly
  | networkOnly
  | p2pOnly
  | hybrid
deriving DecidableEq

/-- Manager configuration fields the embedded code paths read. -/
structure ManagerConfig where
  defaultStrategy : Option StorageStrategy
  replicationFactor : Option Nat

/-- A store request (`StorageRequest`). -/
structure StoreRequest where
  data : Bytes
  options : Option SOptions
  strategy : Option StorageStrategy

/-- Error codes thrown by the manager. -/
inductive ManagerError
  | NO_PROVIDERS
  | STORE_ERROR
  | NOT_FOUND
  | RETRIEVE_ERROR
deriving DecidableEq

/-- Events emitted by the manager, in emission order. -/
inductive MEvent
  | stored (id : String) (size replicas : Nat) (strategy : StorageStrategy)
  | retrieved (id : String) (size : Nat) (provider : String)
  | replicated (id : String) (provider : String)
  | replicationFailed (id : String) (provider : String)
deriving DecidableEq

/-- Recognises the two replication events. -/
def isReplicationEvent : MEvent → Bool
  | .replicated _ _ => true
  | .replicationFailed _ _ => true
  | _ => false

/-- `StorageManager.getProvidersForStrategy` (src/storage/manager.ts
lines 271-284).  The provider map is a `(name, provider)` list in
insertion order (`'local'`, `'network'`, `'p2p'`); `hybrid` takes all
values, the `-only` strategies look up one name. -/
def getProvidersForStrategy (providers : List (String × Provider)) :
    StorageStrategy → List Provider
  | .localOnly => (providers.lookup "local").toList
  | .networkOnly => (providers.lookup "network").toList
  | .p2pOnly => (providers.lookup "p2p").toList
  | .hybrid => providers.map Prod.snd

/-- `StorageManager.findMetadata` (src/storage/manager.ts lines 347-359):
first provider whose `getMetadata` yields a truthy result; thrown errors
are skipped like `null` results. -/
def findMetadataM (providers : List (String × Provider)) (id : String) :
    Option SMetadata :=
  (providers.map Prod.snd).findSome? (fun p => p.getMetadataFn id)

/-- JavaScript `String.prototype.toLowerCase` on the ASCII class names
involved: lower-case every character. -/
def jsToLowerCase (s : String) : String :=
  String.mk (s.data.map Char.toLower)

/-- `StorageManager.getProvidersForMetadata` (src/storage/manager.ts
lines 289-295): keep the providers for which some chunk's
`location.storageType` equals `provider.constructor.name.toLowerCase()`. -/
def getProvidersForMetadataM (providers : List (String × Provider))
    (metadata : SMetadata) : List Provider :=
  (providers.map Prod.snd).filter (fun p =>
    metadata.chunks.any (fun c =>
      c.location.storageType == jsToLowerCase p.className))

/-- The provider loop of `StorageManager.retrieve` (src/storage/manager.ts
lines 156-176): first provider whose `retrieve` does not throw and whose
`validateChecksum` passes; both kinds of failure fall through to the next
provider. -/
def retrieveLoop (id : String) : List Provider → Option (Bytes × Provider)
  | [] => none
  | p :: rest =>
    match p.retrieveFn id with
    | some data => if p.validateChecksumFn id then some (data, p)
                   else retrieveLoop id rest
    | none => retrieveLoop id rest

/-- `StorageManager.retrieve` (src/storage/manager.ts lines 113-183) with
the metadata cache passed explicitly: resolve metadata from the cache or
any provider (else NOT_FOUND); filter the applicable providers (else
NO_PROVIDERS); optionally short-circuit through the preferred provider,
whose result is returned unverified; otherwise run the provider loop,
emitting `retrieved` on a verified read, and fail with RETRIEVE_ERROR
when every provider fails. -/
def retrieveM (providers : List (String × Provider))
    (cache : String → Option SMetadata) (preferred : Option String)
    (id : String) : Except ManagerError Bytes × List MEvent :=
  match (match cache id with
         | some m => some m
         | none => findMetadataM providers id) with
  | none => (.error .NOT_FOUND, [])
  | some metadata =>
    let applicable := getProvidersForMetadataM providers metadata
    if applicable.isEmpty then (.error .NO_PROVIDERS, [])
    else
      let rest :=
        match retrieveLoop id applicable with
        | some (data, p) =>
            (Except.ok data, [MEvent.retrieved id metadata.size p.className])
        | none => (.error .RETRIEVE_ERROR, [])
      match preferred.bind (fun name => providers.lookup name) with
      | some p =>
        match p.retrieveFn id with
        | some data => (.ok data, [])
        | none => rest
      | none => rest

/-- `StorageManager.replicateToProvider` (src/storage/manager.ts lines
316-342): re-retrieve the bytes through the manager, store them at the
target provider, emit `replicated`; any failure inside the `try` is
caught and emitted as `replication-failed`.  Also returns the trace of
`provider.store` invocations made. -/
def replicateToProvider (providers : List (String × Provider))
    (cache : String → Option SMetadata) (metadata : SMetadata)
    (provider : Provider) : List MEvent × List (String × Bytes) :=
  match retrieveM providers cache none metadata.id with
  | (.ok data, events) =>
    match provider.storeFn data with
    | some _ => (events ++ [.replicated metadata.id provider.className],
                 [(provider.className, data)])
    | none => (events ++ [.replicationFailed metadata.id provider.className],
               [(provider.className, data)])
  | (.error _, events) =>
    (events ++ [.replicationFailed metadata.id provider.className], [])

/-- The `providers.slice(0, replicationFactor - 1)` of
`StorageManager.handleReplication`.  JavaScript evaluates `0 - 1 = -1`,
and `slice` with a negative end drops elements from the end, so a zero
factor keeps all but the last provider. -/
def sliceReplicationTargets (provs : List Provider) (factor : Nat) :
    List Provider :=
  if factor = 0 then provs.take (provs.length - 1)
  else provs.take (factor - 1)

/-- `StorageManager.handleReplication` (src/storage/manager.ts lines
300-311): replication factor `options?.replicas ?? config.replicationFactor
?? 1`, then replicate to the sliced secondary providers (the
`Promise.allSettled` is linearised in provider order; the claims below
only inspect event membership, which does not depend on the
interleaving). -/
def handleReplication (providers : List (String × Provider))
    (config : ManagerConfig) (cache : String → Option SMetadata)
    (metadata : SMetadata) (provs : List Provider) (options : Option SOptions) :
    List MEvent × List (String × Bytes) :=
  let replicationFactor :=
    ((options.bind (·.replicas)).orElse
      (fun _ => config.replicationFactor)).getD 1
  (sliceReplicationTargets provs replicationFactor).foldl
    (fun acc p =>
      let r := replicateToProvider providers cache metadata p
      (acc.1 ++ r.1, acc.2 ++ r.2))
    ([], [])

deriving instance DecidableEq for Except

/-- Result of `StorageManager.store`: the returned value or thrown error,
the events emitted, and the trace of `provider.store` invocations. -/
structure StoreOutcome where
  result : Except ManagerError SMetadata
  events : List MEvent
  calls : List (String × Bytes)
deriving DecidableEq

/-- `StorageManager.store` (src/storage/manager.ts lines 71-108): resolve
the strategy (`request.strategy || config.defaultStrategy || 'hybrid'`),
fail with NO_PROVIDERS on an empty provider list, store at the primary
(first) provider, cache its metadata, replicate to the remaining
providers unless there is only one or `options.replicas === 0`, then emit
`stored` and return the primary metadata; a thrown primary store becomes
STORE_ERROR. -/
def storeM (providers : List (String × Provider)) (config : ManagerConfig)
    (cache : String → Option SMetadata) (request : StoreRequest) :
    StoreOutcome :=
  let strategy :=
    ((request.strategy).orElse (fun _ => config.defaultStrategy)).getD .hybrid
  let ps := getProvidersForStrategy providers strategy
  match ps with
  | [] => ⟨.error .NO_PROVIDERS, [], []⟩
  | primary :: secondaries =>
    match primary.storeFn request.data with
    | none => ⟨.error .STORE_ERROR, [], [(primary.className, request.data)]⟩
    | some primaryMetadata =>
      let cache' := fun k => if k = primaryMetadata.id then some primaryMetadata
                             else cache k
      let repl :=
        if ps.length > 1 ∧ (request.options.bind (·.replicas)) ≠ some 0 then
          handleReplication providers config cache' primaryMetadata
            secondaries request.options
        else ([], [])
      ⟨.ok primaryMetadata,
        repl.1 ++ [.stored primaryMetadata.id primaryMetadata.size
                     ps.length strategy],
        (primary.className, request.data) :: repl.2⟩

/-! ## Concrete fixtures used by counterexamples and witnesses -/

/-- The big-endian numeric value of a byte string. -/
def bytesToNatBE (bytes : List Nat) : Nat :=
  bytes.foldl (fun acc b => acc * 256 + b) 0

/-- The all-zero 256-bit id. -/
def zeroId : List Nat := List.replicate 32 0

/-- The id at XOR distance 1 from `zeroId` — the closest possible
distinct peer. -/
def oneId : List Nat := List.replicate 31 0 ++ [1]

/-- The all-ones 256-bit id — at maximal XOR distance from `zeroId`. -/
def maxId : List Nat := List.replicate 32 255

/-- A syntactically complete STORE message whose `payload.key` is the
empty string. -/
def emptyKeyMsg : DHTMessage :=
  { type := some "update", dhtType := some .STORE, protocol := some "dht",
    version := some "1.0.0",
    payload := { id := some "m", timestamp := 0, sender := some "peer",
                 receiver := none, key := some "", value := none, data := none } }

/-- A message lacking its `dhtType`. -/
def noTypeMsg : DHTMessage :=
  { type := some "query", dhtType := none, protocol := some "dht",
    version := some "1.0.0",
    payload := { id := some "m", timestamp := 0, sender := some "peer",
                 receiver := none, key := none, value := none, data := none } }

/-- A peer whose id is at distance 2 from `zeroId` (bucket 254). -/
def peerA : Peer := { id := List.replicate 31 0 ++ [2], lastSeen := 100, rest := "a" }

/-- A peer whose id is at distance 3 from `zeroId` (also bucket 254). -/
def peerB : Peer := { id := List.replicate 31 0 ++ [3], lastSeen := 200, rest := "b" }

/-- A peer carrying the node's own id `zeroId`. -/
def selfPeer : Peer := { id := zeroId, lastSeen := 100, rest := "self" }

/-- Metadata of a small artifact held by the local provider; its one
chunk is located with `storageType: 'local'`. -/
def localMeta : SMetadata :=
  { id := "art1", size := 3,
    chunks := [{ index := 0, size := 3, checksum := "c",
                 location := sourceLoc 0, replicas := 1 }],
    created := 0, modified := 0, checksum := "c", storageType := "local",
    replicas := 1 }

/-- A well-behaved local provider: it knows `art1`, serves its bytes and
passes checksum validation.  Its `className` is the JavaScript
`constructor.name` of `LocalStorageProvider`. -/
def localProvider : Provider :=
  { className := "LocalStorageProvider",
    storeFn := fun _ => some localMeta,
    retrieveFn := fun _ => some [1, 2, 3],
    validateChecksumFn := fun _ => true,
    getMetadataFn := fun i => if i = "art1" then some localMeta else none }

/-- A secondary provider whose every operation fails. -/
def failingProvider : Provider :=
  { className := "NetworkStorageProvider",
    storeFn := fun _ => none,
    retrieveFn := fun _ => none,
    validateChecksumFn := fun _ => false,
    getMetadataFn := fun _ => none }

/-- A two-provider configuration: local primary, failing network
secondary. -/
def twoProviders : List (String × Provider) :=
  [("local", localProvider), ("network", failingProvider)]

/-- A one-byte chunk descriptor with index 0 under the constant hash. -/
def infoA : ChunkInfo :=
  { index := 0, size := 1, checksum := "h", location := sourceLoc 0,
    replicas := 0 }

/-- A one-byte chunk descriptor with index 1 under the constant hash. -/
def infoB : ChunkInfo :=
  { index := 1, size := 1, checksum := "h", location := sourceLoc 0,
    replicas := 0 }

/-- A manager configuration with replication factor 5. -/
def mgrConfig : ManagerConfig :=
  { defaultStrategy := none, replicationFactor := some 5 }

/-- A hybrid store request with default options. -/
def storeReqHybrid : StoreRequest :=
  { data := [7], options := none, strategy := some .hybrid }

/-- A hybrid store request with `replicas: 0`. -/
def storeReqZeroReplicas : StoreRequest :=
  { data := [7], options := some { replicas := some 0 },
    strategy := some .hybrid }

/-! ## Chunk-manager lemmas -/

theorem splitLoop_length (hash : Bytes → String) (now C : Nat) (hC : 0 < C) :
    ∀ (data : Bytes) (idx : Nat),
      (splitLoop hash now C data idx).length = (data.length + C - 1) / C := by
  intro data idx
  induction data, idx using splitLoop.induct hash now C with
  | case1 data idx h =>
    have hd : data = [] := h.resolve_right (by omega)
    rw [splitLoop, dif_pos h, hd]
    simp only [List.length_nil]
    exact (Nat.div_eq_of_lt (by omega)).symm
  | case2 data idx h ih =>
    rw [splitLoop]
    simp only [dif_neg h, List.length_cons, List.length_drop, ih]
    have hd : data ≠ [] := fun hh => h (Or.inl hh)
    have hpos : 0 < data.length := List.length_pos.mpr hd
    rcases Nat.le_total C data.length with hle | hle
    · rw [min_eq_left hle]
      have h1 : data.length - C + C - 1 = data.length - 1 := by omega
      have h2 : data.length + C - 1 = (data.length - 1) + C := by omega
      rw [h1, h2, Nat.add_div_right _ hC]
    · rw [min_eq_right hle]
      have h1 : data.length - data.length + C - 1 = C - 1 := by omega
      rw [h1]
      have h2 : (C - 1) / C = 0 := Nat.div_eq_of_lt (by omega)
      have h3 : (data.length + C - 1) / C = 1 :=
        Nat.div_eq_of_lt_le (by omega) (by omega)
      omega

theorem splitLoop_getElem (hash : Bytes → String) (now C : Nat) (hC : 0 < C) :
    ∀ (data : Bytes) (idx : Nat) (i : Nat), i * C < data.length →
      (splitLoop hash now C data idx)[i]? = some
        { index := idx + i, size := min C (data.length - i * C),
          checksum := hash ((data.drop (i * C)).take (min C (data.length - i * C))),
          location := sourceLoc now, replicas := 0 } := by
  intro data idx
  induction data, idx using splitLoop.induct hash now C with
  | case1 data idx h =>
    intro i hi
    have hd : data = [] := h.resolve_right (by omega)
    rw [hd] at hi
    simp at hi
  | case2 data idx h ih =>
    intro i hi
    have hd : data ≠ [] := fun hh => h (Or.inl hh)
    have hpos : 0 < data.length := List.length_pos.mpr hd
    rw [splitLoop, dif_neg h]
    match i with
    | 0 =>
      simp only [List.getElem?_cons_zero, Nat.add_zero, Nat.zero_mul,
        Nat.sub_zero, List.drop_zero, Option.some.injEq]
    | i + 1 =>
      simp only [List.getElem?_cons_succ]
      have expand : (i + 1) * C = i * C + C := by ring
      rcases Nat.le_total C data.length with hle | hle
      · have hmin : min C data.length = C := min_eq_left hle
        rw [hmin] at ih ⊢
        have hi' : i * C < (data.drop C).length := by
          simp only [List.length_drop]
          omega
        rw [ih i hi']
        have e1 : idx + 1 + i = idx + (i + 1) := by omega
        have e2 : (data.drop C).length - i * C = data.length - (i + 1) * C := by
          simp only [List.length_drop]
          omega
        have e3 : (data.drop C).drop (i * C) = data.drop ((i + 1) * C) := by
          rw [List.drop_drop]
          congr 1
          ring
        rw [e1, e2, e3]
      · exfalso
        omega

theorem chunkSlices_length_eq (hash : Bytes → String) (now C : Nat) :
    ∀ (data : Bytes) (idx : Nat),
      (chunkSlices C data).length = (splitLoop hash now C data idx).length := by
  intro data idx
  induction data, idx using splitLoop.induct hash now C with
  | case1 data idx h =>
    rw [splitLoop, chunkSlices, dif_pos h, dif_pos h]
    rfl
  | case2 data idx h ih =>
    rw [splitLoop, chunkSlices, dif_neg h, dif_neg h]
    simp only [List.length_cons, ih]

theorem chunkSlices_flatten (C : Nat) (hC : 0 < C) :
    ∀ data : Bytes, (chunkSlices C data).flatten = data := by
  intro data
  induction data using chunkSlices.induct C with
  | case1 data h =>
    have hd : data = [] := h.resolve_right (by omega)
    rw [chunkSlices, dif_pos h, hd]
    rfl
  | case2 data h ih =>
    rw [chunkSlices, dif_neg h]
    simp only [List.flatten_cons, ih, List.take_append_drop]

theorem splitLoop_zip_validate (hash : Bytes → String) (now C : Nat) :
    ∀ (data : Bytes) (idx : Nat),
      ∀ p ∈ (splitLoop hash now C data idx).zip (chunkSlices C data),
        validate hash p.2 p.1 = true := by
  intro data idx
  induction data, idx using splitLoop.induct hash now C with
  | case1 data idx h =>
    rw [splitLoop, chunkSlices, dif_pos h, dif_pos h]
    intro p hp
    simp at hp
  | case2 data idx h ih =>
    rw [splitLoop, chunkSlices, dif_neg h, dif_neg h]
    intro p hp
    rw [List.zip_cons_cons, List.mem_cons] at hp
    rcases hp with rfl | hp
    · show validate hash (data.take (min C data.length)) _ = true
      unfold validate
      have hlen : (data.take (min C data.length)).length = min C data.length := by
        simp only [List.length_take]
        omega
      rw [if_neg (by simp [hlen])]
      exact beq_self_eq_true _
    · exact ih p hp

theorem splitLoop_zip_index_lb (hash : Bytes → String) (now C : Nat) :
    ∀ (data : Bytes) (idx : Nat),
      ∀ p ∈ (splitLoop hash now C data idx).zip (chunkSlices C data),
        idx ≤ p.1.index := by
  intro data idx
  induction data, idx using splitLoop.induct hash now C with
  | case1 data idx h =>
    rw [splitLoop, chunkSlices, dif_pos h, dif_pos h]
    intro p hp
    simp at hp
  | case2 data idx h ih =>
    rw [splitLoop, chunkSlices, dif_neg h, dif_neg h]
    intro p hp
    rw [List.zip_cons_cons, List.mem_cons] at hp
    rcases hp with rfl | hp
    · exact le_refl idx
    · exact le_trans (Nat.le_succ idx) (ih p hp)

theorem splitLoop_zip_sorted (hash : Bytes → String) (now C : Nat) :
    ∀ (data : Bytes) (idx : Nat),
      ((splitLoop hash now C data idx).zip (chunkSlices C data)).Pairwise
        (fun a b : ChunkInfo × Bytes => a.1.index ≤ b.1.index) := by
  intro data idx
  induction data, idx using splitLoop.induct hash now C with
  | case1 data idx h =>
    rw [splitLoop, chunkSlices, dif_pos h, dif_pos h]
    exact List.Pairwise.nil
  | case2 data idx h ih =>
    rw [splitLoop, chunkSlices, dif_neg h, dif_neg h]
    rw [List.zip_cons_cons]
    refine List.Pairwise.cons ?_ ih
    intro p hp
    show idx ≤ p.1.index
    exact le_trans (Nat.le_succ idx)
      (splitLoop_zip_index_lb hash now C _ _ p hp)

/-- C6: for every buffer of length N and every chunk size C > 0, `split`
returns exactly ⌈N/C⌉ descriptors; descriptor i has index i (no gaps),
size `min((i+1)·C, N) − i·C` — the length of the byte range
[i·C, min((i+1)·C, N)) — at most C, and checksum the hash of exactly
those bytes; the empty buffer yields no chunks. -/
theorem split_chunk_spec (hash : Bytes → String) (now : Nat) (data : Bytes)
    (C : Nat) (hC : 1 ≤ C) :
    (split hash now data C).length = (data.length + C - 1) / C ∧
    (data = [] → split hash now data C = []) ∧
    ∀ i, i < (split hash now data C).length →
      (split hash now data C)[i]? = some
        { index := i,
          size := min ((i + 1) * C) data.length - i * C,
          checksum := hash ((data.drop (i * C)).take
            (min ((i + 1) * C) data.length - i * C)),
          location := sourceLoc now, replicas := 0 } ∧
      min ((i + 1) * C) data.length - i * C ≤ C := by
  have hC0 : 0 < C := hC
  refine ⟨splitLoop_length hash now C hC0 data 0, ?_, ?_⟩
  · intro hnil
    rw [split, hnil, splitLoop, dif_pos (Or.inl rfl)]
  · intro i hi
    rw [split] at hi ⊢
    rw [splitLoop_length hash now C hC0 data 0] at hi
    have expand : (i + 1) * C = i * C + C := by ring
    have hiC : i * C < data.length := by
      have h2 : (i + 1) * C ≤ data.length + C - 1 :=
        (Nat.le_div_iff_mul_le hC0).mp hi
      omega
    have hmin : min C (data.length - i * C) =
        min ((i + 1) * C) data.length - i * C := by omega
    refine ⟨?_, by omega⟩
    rw [splitLoop_getElem hash now C hC0 data 0 i hiC, hmin]
    simp only [Nat.zero_add]

/-- Witness for C6 at the buffer [1, 2, 3] with chunk size 2. -/
theorem split_chunk_spec_witness :
    (1 ≤ 2) ∧
    ((split (fun _ => "h") 0 [1, 2, 3] 2).length = ([1, 2, 3].length + 2 - 1) / 2 ∧
    (([1, 2, 3] : Bytes) = [] → split (fun _ => "h") 0 [1, 2, 3] 2 = []) ∧
    ∀ i, i < (split (fun _ => "h") 0 [1, 2, 3] 2).length →
      (split (fun _ => "h") 0 [1, 2, 3] 2)[i]? = some
        { index := i,
          size := min ((i + 1) * 2) [1, 2, 3].length - i * 2,
          checksum := (fun _ => "h") (([1, 2, 3].drop (i * 2)).take
            (min ((i + 1) * 2) [1, 2, 3].length - i * 2)),
          location := sourceLoc 0, replicas := 0 } ∧
      min ((i + 1) * 2) [1, 2, 3].length - i * 2 ≤ 2) :=
  ⟨by decide, split_chunk_spec (fun _ => "h") 0 [1, 2, 3] 2 (by decide)⟩

/-- C1: splitting a buffer with any chunk size 1 ≤ C ≤ |x| and combining
the produced chunk buffers with their descriptors restores the buffer
byte for byte. -/
theorem combine_split_roundtrip (hash : Bytes → String) (now : Nat)
    (x : Bytes) (C : Nat) (h1 : 1 ≤ C) (h2 : C ≤ x.length) :
    combine hash (chunkSlices C x) (split hash now x C) = .ok x := by
  have hC : 0 < C := h1
  have hlen := chunkSlices_length_eq hash now C x 0
  have hsorted : ((splitLoop hash now C x 0).zip (chunkSlices C x)).Pairwise
      (fun a b : ChunkInfo × Bytes => a.1.index ≤ b.1.index) :=
    splitLoop_zip_sorted hash now C x 0
  have hfind : ((splitLoop hash now C x 0).zip (chunkSlices C x)).find?
      (fun p => !validate hash p.2 p.1) = none := by
    rw [List.find?_eq_none]
    intro p hp
    rw [splitLoop_zip_validate hash now C x 0 p hp]
    simp
  simp only [combine, split]
  rw [if_neg (by rw [hlen]; exact fun hne => hne rfl)]
  rw [List.Sorted.insertionSort_eq hsorted, hfind]
  show Except.ok (List.map Prod.snd _).flatten = Except.ok x
  rw [List.map_snd_zip _ _ (le_of_eq hlen), chunkSlices_flatten C hC x]

/-- Witness for C1 at the buffer [1, 2, 3] with chunk size 2. -/
theorem combine_split_roundtrip_witness :
    (1 ≤ 2 ∧ 2 ≤ [1, 2, 3].length) ∧
    combine (fun _ => "h") (chunkSlices 2 [1, 2, 3])
      (split (fun _ => "h") 0 [1, 2, 3] 2) = .ok [1, 2, 3] :=
  ⟨by decide,
   combine_split_roundtrip (fun _ => "h") 0 [1, 2, 3] 2 (by decide) (by decide)⟩

/-- C3: given equally many chunk buffers and descriptors, `combine` fails
with CHUNK_VALIDATION_ERROR (returning no data) as soon as one buffer's
length differs from its descriptor's size or its hash differs from its
descriptor's checksum; when every pair validates it returns the
concatenation of the buffers in ascending descriptor-index order, whose
total length is the sum of the descriptor sizes. -/
theorem combine_spec (hash : Bytes → String) (chunks : List Bytes)
    (info : List ChunkInfo) (hlen : chunks.length = info.length) :
    ((∃ p ∈ info.zip chunks, p.2.length ≠ p.1.size ∨ hash p.2 ≠ p.1.checksum) →
      isChunkValidationError (combine hash chunks info) = true) ∧
    ((∀ p ∈ info.zip chunks, p.2.length = p.1.size ∧ hash p.2 = p.1.checksum) →
      ∃ s : List (ChunkInfo × Bytes), (info.zip chunks).Perm s ∧
        s.Pairwise (fun a b => a.1.index ≤ b.1.index) ∧
        combine hash chunks info = .ok (s.map Prod.snd).flatten ∧
        ((s.map Prod.snd).flatten).length = (info.map (·.size)).sum) := by
  constructor
  · rintro ⟨p, hp, hbad⟩
    have hval : validate hash p.2 p.1 = false := by
      unfold validate
      by_cases hsz : p.2.length ≠ p.1.size
      · rw [if_pos hsz]
      · rw [if_neg hsz]
        have hck : hash p.2 ≠ p.1.checksum := by tauto
        simp [hck]
    have hmem : p ∈ List.insertionSort
        (fun a b : ChunkInfo × Bytes => a.1.index ≤ b.1.index)
        (info.zip chunks) :=
      (List.perm_insertionSort _ _).mem_iff.mpr hp
    have hsome : ((List.insertionSort
        (fun a b : ChunkInfo × Bytes => a.1.index ≤ b.1.index)
        (info.zip chunks)).find? (fun p => !validate hash p.2 p.1)).isSome
          = true :=
      List.find?_isSome.mpr ⟨p, hmem, by simp [hval]⟩
    obtain ⟨q, hq⟩ := Option.isSome_iff_exists.mp hsome
    simp only [combine]
    rw [if_neg (by omega), hq]
    rfl
  · intro hgood
    refine ⟨List.insertionSort
        (fun a b : ChunkInfo × Bytes => a.1.index ≤ b.1.index)
        (info.zip chunks), (List.perm_insertionSort _ _).symm, ?_, ?_, ?_⟩
    · haveI : IsTotal (ChunkInfo × Bytes)
          (fun a b => a.1.index ≤ b.1.index) :=
        ⟨fun a b => Nat.le_total a.1.index b.1.index⟩
      haveI : IsTrans (ChunkInfo × Bytes)
          (fun a b => a.1.index ≤ b.1.index) :=
        ⟨fun _ _ _ => Nat.le_trans⟩
      exact List.sorted_insertionSort _ _
    · have hfind : (List.insertionSort
          (fun a b : ChunkInfo × Bytes => a.1.index ≤ b.1.index)
          (info.zip chunks)).find? (fun p => !validate hash p.2 p.1) = none := by
        rw [List.find?_eq_none]
        intro p hp
        have hp' : p ∈ info.zip chunks :=
          (List.perm_insertionSort _ _).mem_iff.mp hp
        obtain ⟨hsz, hck⟩ := hgood p hp'
        unfold validate
        rw [if_neg (by omega)]
        simp [hck]
      simp only [combine]
      rw [if_neg (by omega), hfind]
    · have hperm : (List.insertionSort
          (fun a b : ChunkInfo × Bytes => a.1.index ≤ b.1.index)
          (info.zip chunks)).Perm (info.zip chunks) :=
        List.perm_insertionSort _ _
      rw [List.length_flatten, List.map_map]
      have hmap : List.map (List.length ∘ Prod.snd)
          (List.insertionSort
            (fun a b : ChunkInfo × Bytes => a.1.index ≤ b.1.index)
            (info.zip chunks)) =
          List.map (fun p : ChunkInfo × Bytes => p.1.size)
          (List.insertionSort
            (fun a b : ChunkInfo × Bytes => a.1.index ≤ b.1.index)
            (info.zip chunks)) := by
        refine List.map_congr_left ?_
        intro p hp
        have hp' : p ∈ info.zip chunks := hperm.mem_iff.mp hp
        exact (hgood p hp').1
      rw [hmap]
      have hsum : (List.map (fun p : ChunkInfo × Bytes => p.1.size)
          (List.insertionSort
            (fun a b : ChunkInfo × Bytes => a.1.index ≤ b.1.index)
            (info.zip chunks))).Perm
          (List.map (fun p : ChunkInfo × Bytes => p.1.size) (info.zip chunks)) :=
        hperm.map _
      rw [hsum.sum_eq]
      have : List.map (fun p : ChunkInfo × Bytes => p.1.size) (info.zip chunks) =
          List.map (·.size) (List.map Prod.fst (info.zip chunks)) := by
        rw [List.map_map]
        rfl
      rw [this, List.map_fst_zip _ _ (le_of_eq hlen.symm)]

/-- Witness for C3 at two one-byte pairs, the second of which carries a
wrong checksum under the constant hash function. -/
theorem combine_spec_witness :
    (([[1], [2]] : List Bytes).length = [infoA, infoB].length) ∧
    ((∃ p ∈ [infoA, infoB].zip [[1], [2]],
        p.2.length ≠ p.1.size ∨ (fun _ => "x") p.2 ≠ p.1.checksum) →
      isChunkValidationError
        (combine (fun _ => "x") [[1], [2]] [infoA, infoB]) = true) :=
  ⟨by decide, (combine_spec (fun _ => "x") [[1], [2]] [infoA, infoB] (by decide)).1⟩

/-! ## Wire-protocol validation (C7) -/

/-- C7 counterexample: a message whose `payload.key` is present but is
the empty string — hence not 64 lowercase-hex characters — is accepted by
`validateMessage`, because the source tests the key with JavaScript
truthiness (`message.payload.key && ...`) and the empty string is falsy,
skipping the format check.  The claim requires such a message to be
rejected. -/
theorem validateMessage_emptyKey_accepted :
    emptyKeyMsg.payload.key = some "" ∧
    isHex64 "" = false ∧
    validateMessage 0 emptyKeyMsg = true := by decide

/-- C7 (amended): `validateMessage` rejects a message whenever `dhtType`
is missing, or `payload.sender` is missing, or `payload.key` is present
and non-empty but not 64 lowercase-hex characters, or the timestamp
differs from the current time by more than five minutes. -/
theorem validateMessage_rejects (now : Int) (m : DHTMessage)
    (h : m.dhtType = none ∨ m.payload.sender = none ∨
      (∃ s, m.payload.key = some s ∧ s ≠ "" ∧ isHex64 s = false) ∨
      (now - m.payload.timestamp).natAbs > 5 * 60 * 1000) :
    validateMessage now m = false := by
  unfold validateMessage
  split_ifs with h1 h2 h3
  · rfl
  · rfl
  · rfl
  · exfalso
    rcases h with h | h | ⟨s, hs, hsne, hshex⟩ | h
    · exact h1 (by rw [h]; simp)
    · exact h1 (by rw [h]; simp [strTruthy])
    · exact h2 (by rw [hs]; simp [strTruthy, hsne, hshex])
    · exact h3 h

/-- Witness for C7 at a message lacking its `dhtType`. -/
theorem validateMessage_rejects_witness :
    noTypeMsg.dhtType = none ∧ validateMessage 0 noTypeMsg = false :=
  ⟨rfl, validateMessage_rejects 0 noTypeMsg (Or.inl rfl)⟩

/-! ## Bucket-index lemmas (C2) -/

set_option maxRecDepth 4000 in
theorem byte_firstSetBit (b : Nat) (hb : b < 256) (hnz : b ≠ 0) :
    ∃ j, j < 8 ∧ firstSetBitFromTop b = some j ∧
      2 ^ (7 - j) ≤ b ∧ b < 2 ^ (8 - j) := by
  revert hnz
  revert b
  decide

theorem bytesToNatBE_foldl (t : List Nat) :
    ∀ a : Nat, t.foldl (fun acc b => acc * 256 + b) a =
      a * 256 ^ t.length + bytesToNatBE t := by
  induction t with
  | nil => intro a; simp [bytesToNatBE]
  | cons b t ih =>
    intro a
    show t.foldl _ (a * 256 + b) = _
    rw [ih (a * 256 + b)]
    have hV : bytesToNatBE (b :: t) = b * 256 ^ t.length + bytesToNatBE t := by
      show t.foldl _ (0 * 256 + b) = _
      rw [ih (0 * 256 + b)]
      ring
    rw [hV]
    simp [List.length_cons]
    ring

theorem bytesToNatBE_cons (b : Nat) (t : List Nat) :
    bytesToNatBE (b :: t) = b * 256 ^ t.length + bytesToNatBE t := by
  show t.foldl _ (0 * 256 + b) = _
  rw [bytesToNatBE_foldl t (0 * 256 + b)]
  ring

theorem bytesToNatBE_lt (t : List Nat) (hb : ∀ b ∈ t, b < 256) :
    bytesToNatBE t < 256 ^ t.length := by
  induction t with
  | nil => simp [bytesToNatBE]
  | cons b t ih =>
    rw [bytesToNatBE_cons]
    have hbb : b < 256 := hb b (List.mem_cons_self b t)
    have ht := ih (fun x hx => hb x (List.mem_cons_of_mem b hx))
    have : b * 256 ^ t.length + bytesToNatBE t < (b + 1) * 256 ^ t.length := by
      nlinarith [pow_pos (show (0:Nat) < 256 by omega) t.length]
    calc b * 256 ^ t.length + bytesToNatBE t
        < (b + 1) * 256 ^ t.length := this
      _ ≤ 256 * 256 ^ t.length := by
          have : b + 1 ≤ 256 := by omega
          exact Nat.mul_le_mul_right _ this
      _ = 256 ^ (b :: t).length := by
          rw [List.length_cons, pow_succ]
          ring

theorem bytesToNatBE_ne_zero (t : List Nat) (hnz : ∃ b ∈ t, b ≠ 0) :
    bytesToNatBE t ≠ 0 := by
  induction t with
  | nil => simp at hnz
  | cons b t ih =>
    rw [bytesToNatBE_cons]
    rcases hnz with ⟨c, hc, hcne⟩
    rcases List.mem_cons.mp hc with rfl | hct
    · have : 0 < c * 256 ^ t.length :=
        Nat.mul_pos (Nat.pos_of_ne_zero hcne)
          (pow_pos (by omega) t.length)
      omega
    · have := ih ⟨c, hct, hcne⟩
      omega

theorem pow256_eq (n : Nat) : (256 : Nat) ^ n = 2 ^ (8 * n) := by
  rw [show (256 : Nat) = 2 ^ 8 by norm_num, ← pow_mul]

theorem bucketIndexScan_shift (d : List Nat) (hb : ∀ b ∈ d, b < 256)
    (hnz : ∃ b ∈ d, b ≠ 0) :
    ∀ i, bucketIndexScan d i = i * 8 + bucketIndexScan d 0 := by
  induction d with
  | nil => simp at hnz
  | cons b t ih =>
    intro i
    by_cases hbz : b = 0
    · subst hbz
      show bucketIndexScan t (i + 1) = i * 8 + bucketIndexScan t 1
      have hnzt : ∃ c ∈ t, c ≠ 0 := by
        rcases hnz with ⟨c, hc, hcne⟩
        rcases List.mem_cons.mp hc with rfl | hct
        · omega
        · exact ⟨c, hct, hcne⟩
      have hbt : ∀ c ∈ t, c < 256 := fun c hc => hb c (List.mem_cons_of_mem _ hc)
      rw [ih hbt hnzt (i + 1), ih hbt hnzt 1]
      ring
    · obtain ⟨j, hj8, hjeq, _, _⟩ :=
        byte_firstSetBit b (hb b (List.mem_cons_self b t)) hbz
      show (if b ≠ 0 then _ else _) = i * 8 + (if b ≠ 0 then _ else _)
      rw [if_pos hbz, if_pos hbz, hjeq]
      simp

theorem bucketIndexScan_bounds (d : List Nat) (hb : ∀ b ∈ d, b < 256)
    (hnz : ∃ b ∈ d, b ≠ 0) :
    bucketIndexScan d 0 < 8 * d.length ∧
    2 ^ (8 * d.length - 1 - bucketIndexScan d 0) ≤ bytesToNatBE d ∧
    bytesToNatBE d < 2 ^ (8 * d.length - bucketIndexScan d 0) := by
  induction d with
  | nil => simp at hnz
  | cons b t ih =>
    have hbt : ∀ c ∈ t, c < 256 := fun c hc => hb c (List.mem_cons_of_mem _ hc)
    by_cases hbz : b = 0
    · subst hbz
      have hnzt : ∃ c ∈ t, c ≠ 0 := by
        rcases hnz with ⟨c, hc, hcne⟩
        rcases List.mem_cons.mp hc with rfl | hct
        · omega
        · exact ⟨c, hct, hcne⟩
      obtain ⟨ih1, ih2, ih3⟩ := ih hbt hnzt
      have hshift : bucketIndexScan (0 :: t) 0 = 8 + bucketIndexScan t 0 := by
        show bucketIndexScan t 1 = _
        rw [bucketIndexScan_shift t hbt hnzt 1]
      have hV : bytesToNatBE (0 :: t) = bytesToNatBE t := by
        rw [bytesToNatBE_cons]
        ring
      rw [hshift, hV, List.length_cons]
      refine ⟨by omega, ?_, ?_⟩
      · have he : 8 * (t.length + 1) - 1 - (8 + bucketIndexScan t 0) =
            8 * t.length - 1 - bucketIndexScan t 0 := by omega
        rw [he]
        exact ih2
      · have he : 8 * (t.length + 1) - (8 + bucketIndexScan t 0) =
            8 * t.length - bucketIndexScan t 0 := by omega
        rw [he]
        exact ih3
    · obtain ⟨j, hj8, hjeq, hjlo, hjhi⟩ :=
        byte_firstSetBit b (hb b (List.mem_cons_self b t)) hbz
      have hscan : bucketIndexScan (b :: t) 0 = j := by
        show (if b ≠ 0 then _ else _) = j
        rw [if_pos hbz, hjeq]
        simp
      have hVt : bytesToNatBE t < 2 ^ (8 * t.length) := by
        rw [← pow256_eq]
        exact bytesToNatBE_lt t hbt
      rw [hscan, bytesToNatBE_cons, List.length_cons]
      have hp0 : (0:Nat) < 2 ^ (8 * t.length) := pow_pos (by omega) _
      refine ⟨by omega, ?_, ?_⟩
      · have he : 8 * (t.length + 1) - 1 - j = (7 - j) + 8 * t.length := by omega
        rw [he, pow_add]
        have : 2 ^ (7 - j) * 2 ^ (8 * t.length) ≤ b * 2 ^ (8 * t.length) :=
          Nat.mul_le_mul_right _ hjlo
        rw [pow256_eq]
        omega
      · have he : 8 * (t.length + 1) - j = (8 - j) + 8 * t.length := by omega
        rw [he, pow_add, pow256_eq]
        have hb1 : b + 1 ≤ 2 ^ (8 - j) := hjhi
        nlinarith

/-- C2 counterexample: the claim orients the bucket index with 0 for the
closest pair and 255 for the farthest, but `getBucketIndex` maps the
closest distinct pair (distance 1) to bucket 255 and the farthest pair
(distance 2^256 − 1) to bucket 0. -/
theorem getBucketIndex_orientation_counterexample :
    bytesToNatBE (distance zeroId oneId) = 1 ∧
    getBucketIndex zeroId oneId = 255 ∧
    getBucketIndex zeroId oneId ≠ 0 ∧
    getBucketIndex zeroId maxId = 0 ∧
    getBucketIndex zeroId maxId ≠ 255 := by decide

theorem mem_zipWith_xor (self peer : List Nat) (c : Nat)
    (hc : c ∈ List.zipWith (fun a b => a ^^^ b) self peer) :
    ∃ a b, a ∈ self ∧ b ∈ peer ∧ c = a ^^^ b := by
  induction self generalizing peer with
  | nil => simp at hc
  | cons x xs ih =>
    cases peer with
    | nil => simp at hc
    | cons y ys =>
      rw [List.zipWith_cons_cons, List.mem_cons] at hc
      rcases hc with rfl | hc
      · exact ⟨x, y, List.mem_cons_self _ _, List.mem_cons_self _ _, rfl⟩
      · obtain ⟨a, b, ha, hb, he⟩ := ih ys hc
        exact ⟨a, b, List.mem_cons_of_mem _ ha, List.mem_cons_of_mem _ hb, he⟩

theorem zipWith_xor_ne_zero (self peer : List Nat)
    (hlen : self.length = peer.length) (hne : self ≠ peer) :
    ∃ c ∈ List.zipWith (fun a b => a ^^^ b) self peer, c ≠ 0 := by
  induction self generalizing peer with
  | nil =>
    cases peer with
    | nil => exact absurd rfl hne
    | cons y ys => simp at hlen
  | cons x xs ih =>
    cases peer with
    | nil => simp at hlen
    | cons y ys =>
      by_cases hxy : x = y
      · subst hxy
        have hxs : xs ≠ ys := fun he => hne (by rw [he])
        obtain ⟨c, hc, hcne⟩ := ih ys (by simpa using hlen) hxs
        refine ⟨c, ?_, hcne⟩
        rw [List.zipWith_cons_cons]
        exact List.mem_cons_of_mem _ hc
      · refine ⟨x ^^^ y, ?_, fun h0 => hxy (Nat.xor_eq_zero.mp h0)⟩
        rw [List.zipWith_cons_cons]
        exact List.mem_cons_self _ _

/-- C2 (amended): for distinct 256-bit ids, the bucket index b computed
for the peer marks the position of the most-significant set bit of
XOR(self, peer) counted from the top of the 256-bit value:
2^(255−b) ≤ distance < 2^(256−b).  Hence index 255 is assigned to the
closest pair and index 0 to the farthest. -/
theorem getBucketIndex_spec (self peer : List Nat)
    (hs : self.length = 32) (hp : peer.length = 32)
    (hbs : ∀ b ∈ self, b < 256) (hbp : ∀ b ∈ peer, b < 256)
    (hne : self ≠ peer) :
    getBucketIndex self peer ≤ 255 ∧
    2 ^ (255 - getBucketIndex self peer) ≤
      bytesToNatBE (distance self peer) ∧
    bytesToNatBE (distance self peer) < 2 ^ (256 - getBucketIndex self peer) := by
  have hdb : ∀ c ∈ distance self peer, c < 256 := by
    intro c hc
    obtain ⟨a, b, ha, hb', rfl⟩ := mem_zipWith_xor self peer c hc
    have h2 : (256 : Nat) = 2 ^ 8 := by norm_num
    rw [h2]
    exact Nat.xor_lt_two_pow (h2 ▸ hbs a ha) (h2 ▸ hbp b hb')
  have hdlen : (distance self peer).length = 32 := by
    unfold distance
    rw [List.length_zipWith, hs, hp]
    rfl
  have hdnz : ∃ c ∈ distance self peer, c ≠ 0 :=
    zipWith_xor_ne_zero self peer (by rw [hs, hp]) hne
  obtain ⟨h1, h2, h3⟩ :=
    bucketIndexScan_bounds (distance self peer) hdb hdnz
  rw [hdlen] at h1 h2 h3
  unfold getBucketIndex
  refine ⟨by omega, ?_, ?_⟩
  · have he : 8 * 32 - 1 - bucketIndexScan (distance self peer) 0 =
        255 - bucketIndexScan (distance self peer) 0 := by omega
    rw [he] at h2
    exact h2
  · have he : 8 * 32 - bucketIndexScan (distance self peer) 0 =
        256 - bucketIndexScan (distance self peer) 0 := by omega
    rw [he] at h3
    exact h3

/-- Witness for C2 at the closest distinct pair: bucket 255, distance 1. -/
theorem getBucketIndex_spec_witness :
    getBucketIndex zeroId oneId ≤ 255 ∧
    2 ^ (255 - getBucketIndex zeroId oneId) ≤
      bytesToNatBE (distance zeroId oneId) ∧
    bytesToNatBE (distance zeroId oneId) <
      2 ^ (256 - getBucketIndex zeroId oneId) :=
  getBucketIndex_spec zeroId oneId (by decide) (by decide) (by decide)
    (by decide) (by decide)

/-! ## Storage-manager lemmas (C8, C9, C10) -/

theorem foldl_pair_events_mem
    (F : Provider → List MEvent × List (String × Bytes)) :
    ∀ (l : List Provider) (acc : List MEvent × List (String × Bytes))
      (x : MEvent),
      (x ∈ acc.1 ∨ ∃ p ∈ l, x ∈ (F p).1) →
      x ∈ (l.foldl (fun acc p => (acc.1 ++ (F p).1, acc.2 ++ (F p).2)) acc).1 := by
  intro l
  induction l with
  | nil =>
    intro acc x h
    rcases h with h | ⟨p, hp, _⟩
    · exact h
    · simp at hp
  | cons q l ih =>
    intro acc x h
    show x ∈ (l.foldl _ (acc.1 ++ (F q).1, acc.2 ++ (F q).2)).1
    apply ih
    rcases h with h | ⟨p, hp, hx⟩
    · exact Or.inl (List.mem_append_left _ h)
    · rcases List.mem_cons.mp hp with rfl | hp'
      · exact Or.inl (List.mem_append_right _ hx)
      · exact Or.inr ⟨p, hp', hx⟩

/-- C8: under the hybrid strategy with a non-empty provider list, when
the primary provider's store succeeds, `store` returns the primary
metadata (secondary failures never surface as errors), and every
attempted secondary replication that fails contributes its
`replication-failed` event to the emitted events. -/
theorem store_hybrid_spec
    (providers : List (String × Provider)) (config : ManagerConfig)
    (cache : String → Option SMetadata) (request : StoreRequest)
    (primary : Provider) (secondaries : List Provider) (md : SMetadata)
    (hstrat : (request.strategy.orElse fun _ => config.defaultStrategy).getD
      .hybrid = .hybrid)
    (hps : getProvidersForStrategy providers .hybrid = primary :: secondaries)
    (hprimary : primary.storeFn request.data = some md) :
    (storeM providers config cache request).result = .ok md ∧
    ∀ p ∈ secondaries,
      ((primary :: secondaries).length > 1 ∧
        request.options.bind (·.replicas) ≠ some 0) →
      p ∈ sliceReplicationTargets secondaries
        (((request.options.bind (·.replicas)).orElse
          (fun _ => config.replicationFactor)).getD 1) →
      MEvent.replicationFailed md.id p.className ∈
        (replicateToProvider providers
          (fun k => if k = md.id then some md else cache k) md p).1 →
      MEvent.replicationFailed md.id p.className ∈
        (storeM providers config cache request).events := by
  simp only [storeM, hstrat, hps, hprimary]
  refine ⟨trivial, ?_⟩
  intro p hp hcond hslice hfail
  rw [if_pos hcond]
  apply List.mem_append_left
  simp only [handleReplication]
  exact foldl_pair_events_mem _ _ _ _ (Or.inr ⟨p, hslice, hfail⟩)

/-- Witness for C8: two providers, primary store succeeds, the failing
network secondary's `replication-failed` event appears in the output. -/
theorem store_hybrid_spec_witness :
    (storeM twoProviders mgrConfig (fun _ => none) storeReqHybrid).result =
      .ok localMeta ∧
    MEvent.replicationFailed localMeta.id failingProvider.className ∈
      (storeM twoProviders mgrConfig (fun _ => none) storeReqHybrid).events := by
  have h := store_hybrid_spec twoProviders mgrConfig (fun _ => none)
    storeReqHybrid localProvider [failingProvider] localMeta rfl rfl rfl
  refine ⟨h.1, ?_⟩
  exact h.2 failingProvider (List.mem_cons_self _ _) (by decide)
    (List.mem_singleton.mpr rfl) (by decide)

/-- C9 evaluated at its failing input: one local provider fully holds
artifact `art1` — its metadata is found, its bytes are served and its
checksum validates — yet `retrieve` throws NO_PROVIDERS instead of
returning the verified bytes, because `getProvidersForMetadata` compares
the chunk's `storageType` (`'local'`) with
`constructor.name.toLowerCase()` (`'localstorageprovider'`), which can
never match.  An unknown id does yield NOT_FOUND. -/
theorem retrieve_provider_filter_mismatch :
    retrieveM [("local", localProvider)] (fun _ => none) none "art1" =
      (.error .NO_PROVIDERS, []) ∧
    findMetadataM [("local", localProvider)] "art1" = some localMeta ∧
    localProvider.retrieveFn "art1" = some [1, 2, 3] ∧
    localProvider.validateChecksumFn "art1" = true ∧
    localMeta.chunks.map (fun c => c.location.storageType) = ["local"] ∧
    jsToLowerCase localProvider.className = "localstorageprovider" ∧
    retrieveM [("local", localProvider)] (fun _ => none) none "missing" =
      (.error .NOT_FOUND, []) := by decide

/-- C10: when `options.replicas = 0` and the resolved strategy yields
more than one provider, `store` invokes only the primary provider's
`store` (the call trace holds exactly that one call, so no secondary
provider's state is touched) and emits neither `replicated` nor
`replication-failed`. -/
theorem store_replicas_zero_frame
    (providers : List (String × Provider)) (config : ManagerConfig)
    (cache : String → Option SMetadata) (request : StoreRequest)
    (primary : Provider) (secondaries : List Provider)
    (strategy : StorageStrategy)
    (hstrat : (request.strategy.orElse fun _ => config.defaultStrategy).getD
      .hybrid = strategy)
    (hps : getProvidersForStrategy providers strategy = primary :: secondaries)
    (hmulti : secondaries ≠ [])
    (hzero : request.options.bind (·.replicas) = some 0) :
    (storeM providers config cache request).calls =
      [(primary.className, request.data)] ∧
    ∀ e ∈ (storeM providers config cache request).events,
      isReplicationEvent e = false := by
  simp only [storeM, hstrat, hps]
  cases hpf : primary.storeFn request.data with
  | none =>
    simp only [hpf]
    exact ⟨trivial, by intro e he; simp at he⟩
  | some md =>
    simp only [hpf]
    have hcond : ¬((primary :: secondaries).length > 1 ∧
        request.options.bind (·.replicas) ≠ some 0) := by
      rintro ⟨-, hne⟩
      exact hne hzero
    rw [if_neg hcond]
    refine ⟨rfl, ?_⟩
    intro e he
    simp only [List.nil_append, List.mem_singleton] at he
    rw [he]
    rfl

/-- Witness for C10: under two providers with `replicas: 0` only the
local primary's store is called and no replication event is emitted. -/
theorem store_replicas_zero_frame_witness :
    (storeM twoProviders mgrConfig (fun _ => none) storeReqZeroReplicas).calls =
      [(localProvider.className, storeReqZeroReplicas.data)] ∧
    ∀ e ∈ (storeM twoProviders mgrConfig (fun _ => none)
        storeReqZeroReplicas).events,
      isReplicationEvent e = false :=
  store_replicas_zero_frame twoProviders mgrConfig (fun _ => none)
    storeReqZeroReplicas localProvider [failingProvider] .hybrid rfl rfl
    (List.cons_ne_nil _ _) rfl

/-! ## K-bucket lemmas (C4, C5) -/

theorem findIdx?_eq_some_of_first {α : Type} (p : α → Bool) :
    ∀ (l : List α) (i : Nat) (hi : i < l.length),
      p (l.get ⟨i, hi⟩) = true →
      (∀ j (hj : j < i), p (l.get ⟨j, Nat.lt_trans hj hi⟩) = false) →
      l.findIdx? p = some i := by
  intro l
  induction l with
  | nil => intro i hi; simp at hi
  | cons a t ih =>
    intro i hi hp hfirst
    match i with
    | 0 =>
      have hpa : p a = true := hp
      rw [List.findIdx?_cons, if_pos hpa]
    | i + 1 =>
      have ha : p a = false := hfirst 0 (Nat.succ_pos i)
      rw [List.findIdx?_cons, if_neg (by simp [ha]), List.findIdx?_succ]
      have hi' : i < t.length := Nat.lt_of_succ_lt_succ hi
      have hpt : p (t.get ⟨i, hi'⟩) = true := hp
      rw [ih i hi' hpt (fun j hj => hfirst (j + 1) (Nat.succ_lt_succ hj))]
      rfl

theorem findIdx?_some_first {α : Type} (p : α → Bool) :
    ∀ (l : List α) (i : Nat), l.findIdx? p = some i →
      ∃ hi : i < l.length, p (l.get ⟨i, hi⟩) = true := by
  intro l
  induction l with
  | nil => intro i h; rw [List.findIdx?_nil] at h; exact absurd h (by simp)
  | cons a t ih =>
    intro i h
    rw [List.findIdx?_cons] at h
    by_cases hp : p a = true
    · rw [if_pos hp] at h
      obtain rfl : (0 : Nat) = i := by injection h
      exact ⟨Nat.succ_pos _, hp⟩
    · rw [if_neg hp, List.findIdx?_succ] at h
      cases hfi : t.findIdx? p with
      | none => rw [hfi] at h; simp at h
      | some k =>
        rw [hfi] at h
        simp only [Option.map_some'] at h
        obtain rfl : k + 1 = i := by injection h
        obtain ⟨hk, hpk⟩ := ih k hfi
        exact ⟨Nat.succ_lt_succ hk, hpk⟩

theorem nodup_set_of_not_mem {α : Type} :
    ∀ (l : List α) (i : Nat) (a : α), l.Nodup → a ∉ l → (l.set i a).Nodup := by
  intro l
  induction l with
  | nil => intro i a _ _; simp
  | cons x t ih =>
    intro i a hnd ha
    rw [List.nodup_cons] at hnd
    match i with
    | 0 =>
      rw [List.set_cons_zero, List.nodup_cons]
      exact ⟨fun hmem => ha (List.mem_cons_of_mem _ hmem), hnd.2⟩
    | i + 1 =>
      rw [List.set_cons_succ, List.nodup_cons]
      refine ⟨?_, ih i a hnd.2 (fun hmem => ha (List.mem_cons_of_mem _ hmem))⟩
      intro hmem
      rcases List.mem_or_eq_of_mem_set hmem with hx | rfl
      · exact hnd.1 hx
      · exact ha (List.mem_cons_self _ _)

theorem bucketIndexScan_le_255 (d : List Nat) :
    ∀ i, (i + d.length) * 8 ≤ 256 → bucketIndexScan d i ≤ 255 := by
  induction d with
  | nil => intro i _; exact le_refl 255
  | cons b t ih =>
    intro i hle
    show (if b ≠ 0 then _ else _) ≤ 255
    by_cases hbz : b ≠ 0
    · rw [if_pos hbz]
      cases hfb : firstSetBitFromTop b with
      | none =>
        exact ih (i + 1) (by simp only [List.length_cons] at hle; omega)
      | some j =>
        have hj : j < 8 := List.mem_range.mp (List.mem_of_find?_eq_some hfb)
        simp only [List.length_cons] at hle
        show i * 8 + j ≤ 255
        omega
    · rw [if_neg hbz]
      exact ih (i + 1) (by simp only [List.length_cons] at hle; omega)

theorem getBucketIndex_le_255 (nodeId peerId : List Nat)
    (h : nodeId.length ≤ 32) : getBucketIndex nodeId peerId ≤ 255 := by
  unfold getBucketIndex
  apply bucketIndexScan_le_255
  unfold distance
  rw [List.length_zipWith]
  have : nodeId.length ⊓ peerId.length ≤ 32 := le_trans inf_le_left h
  omega

/-- C4 counterexample: re-adding an already-present peer updates it in
place instead of moving it to the tail.  With bucket 254 holding
[peerA, peerB], adding peerA again leaves the order [peerA, peerB]; the
claimed move-to-tail would end with peerA last. -/
theorem addPeer_no_move_to_tail :
    (((addPeer 300 (addPeer 200 (addPeer 100 (emptyKBucket zeroId 20 0)
          peerA) peerB) peerA).buckets.getD 254
        { peers := [], lastUpdated := 0 }).peers.map Peer.id) =
      [peerA.id, peerB.id] ∧
    peerA.id ≠ peerB.id := by decide

/-- C4 (amended): `addPeer` works on the bucket selected by the XOR
distance of the peer's id; every other bucket is untouched and the
selected bucket's `last_updated` becomes `now`.  If the peer is already
present (first occurrence at position i) it is overwritten in place with
its `last_seen` refreshed; else if the bucket holds fewer than k peers
the refreshed peer is appended; else if some peer is stale (first such at
position i, `last_seen` more than one hour old) that peer is replaced;
otherwise the bucket's peers are unchanged — no live peer is evicted. -/
theorem addPeer_cases (now : Nat) (kb : KBucketState) (peer : Peer)
    (hlen : kb.buckets.length = 256) (hn32 : kb.nodeId.length ≤ 32) :
    (∀ j, j < 256 → j ≠ getBucketIndex kb.nodeId peer.id →
      (addPeer now kb peer).buckets.getD j { peers := [], lastUpdated := 0 } =
        kb.buckets.getD j { peers := [], lastUpdated := 0 }) ∧
    ((addPeer now kb peer).buckets.getD (getBucketIndex kb.nodeId peer.id)
        { peers := [], lastUpdated := 0 }).lastUpdated = now ∧
    (∀ i, ∀ hi : i < (kb.buckets.getD (getBucketIndex kb.nodeId peer.id)
        { peers := [], lastUpdated := 0 }).peers.length,
      ((kb.buckets.getD (getBucketIndex kb.nodeId peer.id)
        { peers := [], lastUpdated := 0 }).peers.get ⟨i, hi⟩).id = peer.id →
      (∀ j, ∀ hj : j < i,
        ((kb.buckets.getD (getBucketIndex kb.nodeId peer.id)
          { peers := [], lastUpdated := 0 }).peers.get
            ⟨j, Nat.lt_trans hj hi⟩).id ≠ peer.id) →
      ((addPeer now kb peer).buckets.getD (getBucketIndex kb.nodeId peer.id)
          { peers := [], lastUpdated := 0 }).peers =
        (kb.buckets.getD (getBucketIndex kb.nodeId peer.id)
          { peers := [], lastUpdated := 0 }).peers.set i
            (refreshPeer now peer)) ∧
    ((∀ q ∈ (kb.buckets.getD (getBucketIndex kb.nodeId peer.id)
        { peers := [], lastUpdated := 0 }).peers, q.id ≠ peer.id) →
      (kb.buckets.getD (getBucketIndex kb.nodeId peer.id)
        { peers := [], lastUpdated := 0 }).peers.length < kb.kSize →
      ((addPeer now kb peer).buckets.getD (getBucketIndex kb.nodeId peer.id)
          { peers := [], lastUpdated := 0 }).peers =
        (kb.buckets.getD (getBucketIndex kb.nodeId peer.id)
          { peers := [], lastUpdated := 0 }).peers ++ [refreshPeer now peer]) ∧
    ((∀ q ∈ (kb.buckets.getD (getBucketIndex kb.nodeId peer.id)
        { peers := [], lastUpdated := 0 }).peers, q.id ≠ peer.id) →
      ¬ (kb.buckets.getD (getBucketIndex kb.nodeId peer.id)
        { peers := [], lastUpdated := 0 }).peers.length < kb.kSize →
      ∀ i, ∀ hi : i < (kb.buckets.getD (getBucketIndex kb.nodeId peer.id)
          { peers := [], lastUpdated := 0 }).peers.length,
        now - ((kb.buckets.getD (getBucketIndex kb.nodeId peer.id)
          { peers := [], lastUpdated := 0 }).peers.get ⟨i, hi⟩).lastSeen >
            60 * 60 * 1000 →
        (∀ j, ∀ hj : j < i,
          ¬(now - ((kb.buckets.getD (getBucketIndex kb.nodeId peer.id)
            { peers := [], lastUpdated := 0 }).peers.get
              ⟨j, Nat.lt_trans hj hi⟩).lastSeen > 60 * 60 * 1000)) →
        ((addPeer now kb peer).buckets.getD (getBucketIndex kb.nodeId peer.id)
            { peers := [], lastUpdated := 0 }).peers =
          (kb.buckets.getD (getBucketIndex kb.nodeId peer.id)
            { peers := [], lastUpdated := 0 }).peers.set i
              (refreshPeer now peer)) ∧
    ((∀ q ∈ (kb.buckets.getD (getBucketIndex kb.nodeId peer.id)
        { peers := [], lastUpdated := 0 }).peers, q.id ≠ peer.id) →
      ¬ (kb.buckets.getD (getBucketIndex kb.nodeId peer.id)
        { peers := [], lastUpdated := 0 }).peers.length < kb.kSize →
      (∀ q ∈ (kb.buckets.getD (getBucketIndex kb.nodeId peer.id)
        { peers := [], lastUpdated := 0 }).peers,
        now - q.lastSeen ≤ 60 * 60 * 1000) →
      ((addPeer now kb peer).buckets.getD (getBucketIndex kb.nodeId peer.id)
          { peers := [], lastUpdated := 0 }).peers =
        (kb.buckets.getD (getBucketIndex kb.nodeId peer.id)
          { peers := [], lastUpdated := 0 }).peers) := by
  have hblt : getBucketIndex kb.nodeId peer.id < kb.buckets.length := by
    have := getBucketIndex_le_255 kb.nodeId peer.id hn32
    omega
  have hframe : ∀ (X : Bucket) (j : Nat), j < kb.buckets.length →
      j ≠ getBucketIndex kb.nodeId peer.id →
      (kb.buckets.set (getBucketIndex kb.nodeId peer.id) X).getD j
        { peers := [], lastUpdated := 0 } =
        kb.buckets.getD j { peers := [], lastUpdated := 0 } := by
    intro X j hj hne
    rw [List.getD_eq_getElem _ _ (by rwa [List.length_set]),
      List.getD_eq_getElem _ _ hj]
    exact List.getElem_set_ne (fun h => hne h.symm) _
  have hgset : ∀ X : Bucket,
      (kb.buckets.set (getBucketIndex kb.nodeId peer.id) X).getD
        (getBucketIndex kb.nodeId peer.id) { peers := [], lastUpdated := 0 } =
        X := by
    intro X
    rw [List.getD_eq_getElem _ _ (by rwa [List.length_set])]
    exact List.getElem_set_self _
  refine ⟨?_, ?_, ?_, ?_, ?_, ?_⟩
  · intro j hj hne
    simp only [addPeer]
    exact hframe _ j (by omega) hne
  · simp only [addPeer]
    rw [hgset _]
  · intro i hi hid hfirst
    have hfind : (kb.buckets.getD (getBucketIndex kb.nodeId peer.id)
        { peers := [], lastUpdated := 0 }).peers.findIdx?
          (fun p => p.id == peer.id) = some i := by
      apply findIdx?_eq_some_of_first _ _ i hi
      · exact beq_iff_eq.mpr hid
      · intro j hj
        exact beq_eq_false_iff_ne.mpr (hfirst j hj)
    simp only [addPeer, hfind]
    rw [hgset _]
  · intro habs hroom
    have hfind : (kb.buckets.getD (getBucketIndex kb.nodeId peer.id)
        { peers := [], lastUpdated := 0 }).peers.findIdx?
          (fun p => p.id == peer.id) = none :=
      List.findIdx?_eq_none_iff.mpr
        (fun q hq => beq_eq_false_iff_ne.mpr (habs q hq))
    simp only [addPeer, hfind, addPeerToBucket]
    rw [if_pos hroom, hgset _]
  · intro habs hroom i hi hstale hfirst
    have hfind : (kb.buckets.getD (getBucketIndex kb.nodeId peer.id)
        { peers := [], lastUpdated := 0 }).peers.findIdx?
          (fun p => p.id == peer.id) = none :=
      List.findIdx?_eq_none_iff.mpr
        (fun q hq => beq_eq_false_iff_ne.mpr (habs q hq))
    have hstaleFind : findStalePeer now (kb.buckets.getD
        (getBucketIndex kb.nodeId peer.id)
        { peers := [], lastUpdated := 0 }) = some i := by
      apply findIdx?_eq_some_of_first _ _ i hi
      · exact decide_eq_true hstale
      · intro j hj
        exact decide_eq_false (hfirst j hj)
    simp only [addPeer, hfind, addPeerToBucket]
    rw [if_neg hroom, hstaleFind]
    rw [hgset _]
  · intro habs hroom hlive
    have hfind : (kb.buckets.getD (getBucketIndex kb.nodeId peer.id)
        { peers := [], lastUpdated := 0 }).peers.findIdx?
          (fun p => p.id == peer.id) = none :=
      List.findIdx?_eq_none_iff.mpr
        (fun q hq => beq_eq_false_iff_ne.mpr (habs q hq))
    have hstaleFind : findStalePeer now
        (kb.buckets.getD (getBucketIndex kb.nodeId peer.id)
          { peers := [], lastUpdated := 0 }) = none :=
      List.findIdx?_eq_none_iff.mpr
        (fun q hq => decide_eq_false (by have := hlive q hq; omega))
    simp only [addPeer, hfind, addPeerToBucket]
    rw [if_neg hroom, hstaleFind]
    rw [hgset _]

set_option maxRecDepth 100000 in
/-- Witness for C4: adding a fresh peer to the (empty) bucket 254 of a
new table appends it with refreshed `last_seen`. -/
theorem addPeer_cases_witness :
    ((addPeer 100 (emptyKBucket zeroId 20 0) peerA).buckets.getD
        (getBucketIndex (emptyKBucket zeroId 20 0).nodeId peerA.id)
        { peers := [], lastUpdated := 0 }).peers =
      ((emptyKBucket zeroId 20 0).buckets.getD
        (getBucketIndex (emptyKBucket zeroId 20 0).nodeId peerA.id)
        { peers := [], lastUpdated := 0 }).peers ++ [refreshPeer 100 peerA] :=
  (addPeer_cases 100 (emptyKBucket zeroId 20 0) peerA (by decide)
    (by decide)).2.2.2.1 (by decide) (by decide)

theorem set_getElem_self {α : Type} :
    ∀ (l : List α) (i : Nat) (hi : i < l.length), l.set i (l.get ⟨i, hi⟩) = l := by
  intro l
  induction l with
  | nil => intro i hi; simp at hi
  | cons x t ih =>
    intro i hi
    match i with
    | 0 =>
      rw [List.set_cons_zero]
      rfl
    | i + 1 =>
      rw [List.set_cons_succ]
      exact congrArg (x :: ·) (ih i (Nat.lt_of_succ_lt_succ hi))

theorem map_id_set_eq (l : List Peer) (i : Nat) (a : Peer)
    (hi : i < l.length) (h : (l.get ⟨i, hi⟩).id = a.id) :
    (l.set i a).map Peer.id = l.map Peer.id := by
  rw [List.map_set]
  have hlen : i < (l.map Peer.id).length := by simpa using hi
  have hgi : (l.map Peer.id).get ⟨i, hlen⟩ = a.id := by
    rw [List.get_eq_getElem, List.getElem_map]
    rw [← h, List.get_eq_getElem]
  rw [← hgi]
  exact set_getElem_self _ _ _

theorem getD_out_of_bounds {α : Type} (l : List α) (n : Nat) (d : α)
    (h : l.length ≤ n) : l.getD n d = d := by
  rw [List.getD_eq_getElem?_getD, List.getElem?_eq_none h]
  rfl

theorem addPeer_preserves_inv (now : Nat) (kb : KBucketState) (peer : Peer)
    (hn32 : kb.nodeId.length ≤ 32) (hinv : TableInv kb) :
    TableInv (addPeer now kb peer) := by
  obtain ⟨hlen, hbuckets⟩ := hinv
  have hblt : getBucketIndex kb.nodeId peer.id < kb.buckets.length := by
    have := getBucketIndex_le_255 kb.nodeId peer.id hn32
    omega
  have hgetD : kb.buckets.getD (getBucketIndex kb.nodeId peer.id)
      { peers := [], lastUpdated := 0 } =
      kb.buckets.get ⟨getBucketIndex kb.nodeId peer.id, hblt⟩ := by
    rw [List.getD_eq_getElem _ _ hblt, List.get_eq_getElem]
  obtain ⟨hnd, hcap, hcoh⟩ := hbuckets (getBucketIndex kb.nodeId peer.id) hblt
  constructor
  · simp only [addPeer, List.length_set]
    exact hlen
  · intro i hi
    have hi' : i < kb.buckets.length := by
      simpa only [addPeer, List.length_set] using hi
    have hks : (addPeer now kb peer).kSize = kb.kSize := rfl
    have hnodeId : (addPeer now kb peer).nodeId = kb.nodeId := rfl
    by_cases hib : i = getBucketIndex kb.nodeId peer.id
    · subst hib
      have hne : peer.id ∉ ((kb.buckets.get
          ⟨getBucketIndex kb.nodeId peer.id, hblt⟩).peers.map Peer.id) →
          True := fun _ => trivial
      cases hfind : (kb.buckets.get
          ⟨getBucketIndex kb.nodeId peer.id, hblt⟩).peers.findIdx?
            (fun p => p.id == peer.id) with
      | some idx =>
        obtain ⟨hidx, hpeq⟩ := findIdx?_some_first _ _ _ hfind
        have hideq : ((kb.buckets.get
            ⟨getBucketIndex kb.nodeId peer.id, hblt⟩).peers.get
              ⟨idx, hidx⟩).id = peer.id := beq_iff_eq.mp hpeq
        have hset : (addPeer now kb peer).buckets.get
            ⟨getBucketIndex kb.nodeId peer.id, hi⟩ =
            { peers := (kb.buckets.get
                ⟨getBucketIndex kb.nodeId peer.id, hblt⟩).peers.set idx
                  (refreshPeer now peer),
              lastUpdated := now } := by
          rw [List.get_eq_getElem]
          simp only [addPeer, hgetD, hfind]
          exact List.getElem_set_self _
        rw [hset, hks, hnodeId]
        refine ⟨?_, ?_, ?_⟩
        · show (((kb.buckets.get _).peers.set idx
              (refreshPeer now peer)).map Peer.id).Nodup
          rw [map_id_set_eq _ idx (refreshPeer now peer) hidx hideq]
          exact hnd
        · show ((kb.buckets.get _).peers.set idx _).length ≤ kb.kSize
          rw [List.length_set]
          exact hcap
        · intro q hq
          rcases List.mem_or_eq_of_mem_set hq with hq' | rfl
          · exact hcoh q hq'
          · rfl
      | none =>
        have habs : ∀ q ∈ (kb.buckets.get
            ⟨getBucketIndex kb.nodeId peer.id, hblt⟩).peers,
            q.id ≠ peer.id := by
          intro q hq
          exact beq_eq_false_iff_ne.mp (List.findIdx?_eq_none_iff.mp hfind q hq)
        have hnotmem : peer.id ∉ ((kb.buckets.get
            ⟨getBucketIndex kb.nodeId peer.id, hblt⟩).peers.map Peer.id) := by
          intro hmem
          obtain ⟨q, hqmem, hqid⟩ := List.mem_map.mp hmem
          exact habs q hqmem hqid
        by_cases hroom : (kb.buckets.get
            ⟨getBucketIndex kb.nodeId peer.id, hblt⟩).peers.length < kb.kSize
        · have hset : (addPeer now kb peer).buckets.get
              ⟨getBucketIndex kb.nodeId peer.id, hi⟩ =
              { peers := (kb.buckets.get
                  ⟨getBucketIndex kb.nodeId peer.id, hblt⟩).peers ++
                    [refreshPeer now peer],
                lastUpdated := now } := by
            rw [List.get_eq_getElem]
            simp only [addPeer, hgetD, hfind, addPeerToBucket, if_pos hroom]
            exact List.getElem_set_self _
          rw [hset, hks, hnodeId]
          refine ⟨?_, ?_, ?_⟩
          · show ((_ ++ [refreshPeer now peer]).map Peer.id).Nodup
            rw [List.map_append]
            rw [List.nodup_append]
            refine ⟨hnd, List.nodup_singleton _, ?_⟩
            intro x hx hx'
            rcases List.mem_singleton.mp hx' with rfl
            exact hnotmem hx
          · show (_ ++ [refreshPeer now peer]).length ≤ kb.kSize
            rw [List.length_append]
            simpa using hroom
          · intro q hq
            rcases List.mem_append.mp hq with hq' | hq'
            · exact hcoh q hq'
            · rcases List.mem_singleton.mp hq' with rfl
              rfl
        · cases hstale : findStalePeer now (kb.buckets.get
              ⟨getBucketIndex kb.nodeId peer.id, hblt⟩) with
          | some sidx =>
            have hsidx : sidx < (kb.buckets.get
                ⟨getBucketIndex kb.nodeId peer.id, hblt⟩).peers.length := by
              unfold findStalePeer at hstale
              obtain ⟨h, _⟩ := findIdx?_some_first _ _ _ hstale
              exact h
            have hset : (addPeer now kb peer).buckets.get
                ⟨getBucketIndex kb.nodeId peer.id, hi⟩ =
                { peers := (kb.buckets.get
                    ⟨getBucketIndex kb.nodeId peer.id, hblt⟩).peers.set sidx
                      (refreshPeer now peer),
                  lastUpdated := now } := by
              rw [List.get_eq_getElem]
              simp only [addPeer, hgetD, hfind, addPeerToBucket,
                if_neg hroom, hstale]
              exact List.getElem_set_self _
            rw [hset, hks, hnodeId]
            refine ⟨?_, ?_, ?_⟩
            · show (((kb.buckets.get _).peers.set sidx
                  (refreshPeer now peer)).map Peer.id).Nodup
              rw [List.map_set]
              exact nodup_set_of_not_mem _ sidx _ hnd hnotmem
            · show ((kb.buckets.get _).peers.set sidx _).length ≤ kb.kSize
              rw [List.length_set]
              exact hcap
            · intro q hq
              rcases List.mem_or_eq_of_mem_set hq with hq' | rfl
              · exact hcoh q hq'
              · rfl
          | none =>
            have hset : (addPeer now kb peer).buckets.get
                ⟨getBucketIndex kb.nodeId peer.id, hi⟩ =
                { peers := (kb.buckets.get
                    ⟨getBucketIndex kb.nodeId peer.id, hblt⟩).peers,
                  lastUpdated := now } := by
              rw [List.get_eq_getElem]
              simp only [addPeer, hgetD, hfind, addPeerToBucket,
                if_neg hroom, hstale]
              exact List.getElem_set_self _
            rw [hset, hks, hnodeId]
            exact ⟨hnd, hcap, hcoh⟩
    · -- untouched bucket
      have huntouched : (addPeer now kb peer).buckets.get ⟨i, hi⟩ =
          kb.buckets.get ⟨i, hi'⟩ := by
        rw [List.get_eq_getElem, List.get_eq_getElem]
        simp only [addPeer]
        exact List.getElem_set_ne (fun h => hib h.symm) _
      rw [huntouched]
      exact hbuckets i hi'

theorem removePeer_preserves_inv (now : Nat) (kb : KBucketState)
    (peerId : List Nat) (hn32 : kb.nodeId.length ≤ 32) (hinv : TableInv kb) :
    TableInv (removePeer now kb peerId) := by
  obtain ⟨hlen, hbuckets⟩ := hinv
  cases hfind : (kb.buckets.getD (getBucketIndex kb.nodeId peerId)
      { peers := [], lastUpdated := 0 }).peers.findIdx?
        (fun p => p.id == peerId) with
  | none =>
    simp only [removePeer, hfind]
    exact ⟨hlen, hbuckets⟩
  | some idx =>
    have hblt : getBucketIndex kb.nodeId peerId < kb.buckets.length := by
      have := getBucketIndex_le_255 kb.nodeId peerId hn32
      omega
    have hgetD : kb.buckets.getD (getBucketIndex kb.nodeId peerId)
        { peers := [], lastUpdated := 0 } =
        kb.buckets.get ⟨getBucketIndex kb.nodeId peerId, hblt⟩ := by
      rw [List.getD_eq_getElem _ _ hblt, List.get_eq_getElem]
    obtain ⟨hnd, hcap, hcoh⟩ := hbuckets (getBucketIndex kb.nodeId peerId) hblt
    rw [← hgetD] at hnd hcap hcoh
    constructor
    · simp only [removePeer, hfind, List.length_set]
      exact hlen
    · intro i hi
      have hi' : i < kb.buckets.length := by
        simpa only [removePeer, hfind, List.length_set] using hi
      have hks : (removePeer now kb peerId).kSize = kb.kSize := by
        simp only [removePeer, hfind]
      have hnodeId : (removePeer now kb peerId).nodeId = kb.nodeId := by
        simp only [removePeer, hfind]
      by_cases hib : i = getBucketIndex kb.nodeId peerId
      · subst hib
        have hset : (removePeer now kb peerId).buckets.get
            ⟨getBucketIndex kb.nodeId peerId, hi⟩ =
            { peers := (kb.buckets.getD (getBucketIndex kb.nodeId peerId)
                { peers := [], lastUpdated := 0 }).peers.eraseIdx idx,
              lastUpdated := now } := by
          rw [List.get_eq_getElem]
          simp only [removePeer, hfind]
          exact List.getElem_set_self _
        rw [hset, hks, hnodeId]
        refine ⟨?_, ?_, ?_⟩
        · exact List.Nodup.sublist
            ((List.eraseIdx_sublist _ idx).map Peer.id) hnd
        · exact le_trans (List.length_eraseIdx_le _ _) hcap
        · intro q hq
          exact hcoh q ((List.eraseIdx_sublist _ idx).subset hq)
      · have huntouched : (removePeer now kb peerId).buckets.get ⟨i, hi⟩ =
            kb.buckets.get ⟨i, hi'⟩ := by
          rw [List.get_eq_getElem, List.get_eq_getElem]
          simp only [removePeer, hfind]
          exact List.getElem_set_ne (fun h => hib h.symm) _
        rw [huntouched, hks, hnodeId]
        exact hbuckets i hi'

theorem idInTable_addPeer (now : Nat) (kb : KBucketState) (peer : Peer)
    (x : List Nat) (h : idInTable (addPeer now kb peer) x) :
    idInTable kb x ∨ x = peer.id := by
  obtain ⟨bucket, hbucket, q, hq, hqid⟩ := h
  simp only [addPeer] at hbucket
  rcases List.mem_or_eq_of_mem_set hbucket with hmem | rfl
  · exact Or.inl ⟨bucket, hmem, q, hq, hqid⟩
  · have hq' : q ∈ (kb.buckets.getD (getBucketIndex kb.nodeId peer.id)
        { peers := [], lastUpdated := 0 }).peers ∨ q = refreshPeer now peer := by
      cases hfind : (kb.buckets.getD (getBucketIndex kb.nodeId peer.id)
          { peers := [], lastUpdated := 0 }).peers.findIdx?
            (fun p => p.id == peer.id) with
      | some idx =>
        simp only [hfind] at hq
        exact List.mem_or_eq_of_mem_set hq
      | none =>
        simp only [hfind, addPeerToBucket] at hq
        by_cases hroom : (kb.buckets.getD (getBucketIndex kb.nodeId peer.id)
            { peers := [], lastUpdated := 0 }).peers.length < kb.kSize
        · rw [if_pos hroom] at hq
          rcases List.mem_append.mp hq with h' | h'
          · exact Or.inl h'
          · exact Or.inr (List.mem_singleton.mp h')
        · rw [if_neg hroom] at hq
          cases hstale : findStalePeer now
              (kb.buckets.getD (getBucketIndex kb.nodeId peer.id)
                { peers := [], lastUpdated := 0 }) with
          | some sidx =>
            rw [hstale] at hq
            exact List.mem_or_eq_of_mem_set hq
          | none =>
            rw [hstale] at hq
            exact Or.inl hq
    rcases hq' with hmem' | rfl
    · by_cases hblen : getBucketIndex kb.nodeId peer.id < kb.buckets.length
      · have hgd : kb.buckets.getD (getBucketIndex kb.nodeId peer.id)
            { peers := [], lastUpdated := 0 } =
            kb.buckets.get ⟨getBucketIndex kb.nodeId peer.id, hblen⟩ := by
          rw [List.getD_eq_getElem _ _ hblen, List.get_eq_getElem]
        rw [hgd] at hmem'
        refine Or.inl ⟨kb.buckets.get ⟨_, hblen⟩, ?_, q, hmem', hqid⟩
        rw [List.get_eq_getElem]
        exact List.getElem_mem _
      · rw [getD_out_of_bounds _ _ _ (by omega)] at hmem'
        simp at hmem'
    · exact Or.inr hqid.symm

theorem idInTable_removePeer (now : Nat) (kb : KBucketState)
    (peerId : List Nat) (x : List Nat)
    (h : idInTable (removePeer now kb peerId) x) : idInTable kb x := by
  obtain ⟨bucket, hbucket, q, hq, hqid⟩ := h
  cases hfind : (kb.buckets.getD (getBucketIndex kb.nodeId peerId)
      { peers := [], lastUpdated := 0 }).peers.findIdx?
        (fun p => p.id == peerId) with
  | none =>
    simp only [removePeer, hfind] at hbucket
    exact ⟨bucket, hbucket, q, hq, hqid⟩
  | some idx =>
    have hblen : getBucketIndex kb.nodeId peerId < kb.buckets.length := by
      by_contra hge
      rw [getD_out_of_bounds _ _ _ (by omega)] at hfind
      rw [List.findIdx?_nil] at hfind
      exact absurd hfind (by simp)
    simp only [removePeer, hfind] at hbucket
    rcases List.mem_or_eq_of_mem_set hbucket with hmem | rfl
    · exact ⟨bucket, hmem, q, hq, hqid⟩
    · have hq' : q ∈ (kb.buckets.getD (getBucketIndex kb.nodeId peerId)
          { peers := [], lastUpdated := 0 }).peers :=
        (List.eraseIdx_sublist _ idx).subset hq
      have hgd : kb.buckets.getD (getBucketIndex kb.nodeId peerId)
          { peers := [], lastUpdated := 0 } =
          kb.buckets.get ⟨getBucketIndex kb.nodeId peerId, hblen⟩ := by
        rw [List.getD_eq_getElem _ _ hblen, List.get_eq_getElem]
      rw [hgd] at hq'
      refine ⟨kb.buckets.get ⟨_, hblen⟩, ?_, q, hq', hqid⟩
      rw [List.get_eq_getElem]
      exact List.getElem_mem _

theorem removePeer_nodeId (now : Nat) (kb : KBucketState) (peerId : List Nat) :
    (removePeer now kb peerId).nodeId = kb.nodeId := by
  simp only [removePeer]
  split <;> rfl

theorem applyOps_inv (ops : List TableOp) :
    ∀ kb : KBucketState, kb.nodeId.length ≤ 32 → TableInv kb →
      TableInv (applyOps kb ops) := by
  induction ops with
  | nil => intro kb _ h; exact h
  | cons op rest ih =>
    intro kb hn32 hinv
    cases op with
    | add t p =>
      exact ih (addPeer t kb p) hn32 (addPeer_preserves_inv t kb p hn32 hinv)
    | remove t pid =>
      refine ih (removePeer t kb pid) ?_
        (removePeer_preserves_inv t kb pid hn32 hinv)
      rw [removePeer_nodeId]
      exact hn32

theorem applyOps_not_in (ops : List TableOp) :
    ∀ (kb : KBucketState) (x : List Nat),
      (∀ t p, TableOp.add t p ∈ ops → p.id ≠ x) →
      ¬ idInTable kb x → ¬ idInTable (applyOps kb ops) x := by
  induction ops with
  | nil => intro kb x _ h; exact h
  | cons op rest ih =>
    intro kb x hops hnot
    cases op with
    | add t p =>
      apply ih (addPeer t kb p) x
        (fun t' p' hmem => hops t' p' (List.mem_cons_of_mem _ hmem))
      intro hin
      rcases idInTable_addPeer t kb p x hin with h' | heq
      · exact hnot h'
      · exact hops t p (List.mem_cons_self _ _) heq.symm
    | remove t pid =>
      apply ih (removePeer t kb pid) x
        (fun t' p' hmem => hops t' p' (List.mem_cons_of_mem _ hmem))
      intro hin
      exact hnot (idInTable_removePeer t kb pid x hin)

theorem emptyKBucket_inv (nodeId : List Nat) (k now0 : Nat) :
    TableInv (emptyKBucket nodeId k now0) := by
  constructor
  · exact List.length_replicate _ _
  · intro i hi
    have hrep : (emptyKBucket nodeId k now0).buckets.get ⟨i, hi⟩ =
        { peers := [], lastUpdated := now0 } := by
      rw [List.get_eq_getElem]
      exact List.getElem_replicate _ _
    rw [hrep]
    exact ⟨List.nodup_nil, by simp, by simp⟩

theorem emptyKBucket_not_in (nodeId : List Nat) (k now0 : Nat) (x : List Nat) :
    ¬ idInTable (emptyKBucket nodeId k now0) x := by
  rintro ⟨bucket, hb, q, hq, _⟩
  have hb' : bucket = { peers := [], lastUpdated := now0 } :=
    List.eq_of_mem_replicate hb
  rw [hb'] at hq
  simp at hq

set_option maxRecDepth 100000 in
/-- C5 counterexample: `addPeer` has no self-id guard.  Adding a peer
bearing the node's own id to the fresh table inserts it into bucket 255,
so "the node's own id is never present in any bucket" fails. -/
theorem addPeer_self_inserted :
    selfPeer.id = zeroId ∧
    idInTable (applyOps (emptyKBucket zeroId 20 0)
      [TableOp.add 100 selfPeer]) zeroId ∧
    (((applyOps (emptyKBucket zeroId 20 0)
        [TableOp.add 100 selfPeer]).buckets.getD 255
          { peers := [], lastUpdated := 0 }).peers.map Peer.id) = [zeroId] := by
  refine ⟨rfl, ?_, by decide⟩
  refine ⟨(applyOps (emptyKBucket zeroId 20 0)
      [TableOp.add 100 selfPeer]).buckets.get ⟨255, by decide⟩, ?_, ?_⟩
  · rw [List.get_eq_getElem]
    exact List.getElem_mem _
  · decide

/-- C5 (amended): after any sequence of `addPeer` / `removePeer`
operations starting from the empty routing table, the table keeps its 256
buckets with no duplicate ids inside a bucket and at most k peers per
bucket; a peer id determines its bucket, so no id occurs in two distinct
buckets; and the node's own id is absent provided no operation added a
peer bearing it (the code itself never guards against inserting the self
id — see the counterexample). -/
theorem applyOps_invariants (nodeId : List Nat) (kSize now0 : Nat)
    (ops : List TableOp) (hn32 : nodeId.length ≤ 32) :
    TableInv (applyOps (emptyKBucket nodeId kSize now0) ops) ∧
    (∀ i j, ∀ hi : i < (applyOps (emptyKBucket nodeId kSize now0)
        ops).buckets.length,
      ∀ hj : j < (applyOps (emptyKBucket nodeId kSize now0)
        ops).buckets.length,
      ∀ q r, q ∈ ((applyOps (emptyKBucket nodeId kSize now0)
          ops).buckets.get ⟨i, hi⟩).peers →
        r ∈ ((applyOps (emptyKBucket nodeId kSize now0)
          ops).buckets.get ⟨j, hj⟩).peers →
        q.id = r.id → i = j) ∧
    ((∀ t p, TableOp.add t p ∈ ops → p.id ≠ nodeId) →
      ¬ idInTable (applyOps (emptyKBucket nodeId kSize now0) ops) nodeId) := by
  have hinv := applyOps_inv ops (emptyKBucket nodeId kSize now0) hn32
    (emptyKBucket_inv nodeId kSize now0)
  refine ⟨hinv, ?_, ?_⟩
  · intro i j hi hj q r hq hr hid
    obtain ⟨-, hb⟩ := hinv
    have h1 := (hb i hi).2.2 q hq
    have h2 := (hb j hj).2.2 r hr
    rw [← h1, ← h2, hid]
  · intro hops
    exact applyOps_not_in ops (emptyKBucket nodeId kSize now0) nodeId hops
      (emptyKBucket_not_in nodeId kSize now0 nodeId)

set_option maxRecDepth 100000 in
/-- Witness for C5 at the one-operation sequence adding peerA. -/
theorem applyOps_invariants_witness :
    TableInv (applyOps (emptyKBucket zeroId 20 0) [TableOp.add 100 peerA]) ∧
    (∀ i j, ∀ hi : i < (applyOps (emptyKBucket zeroId 20 0)
        [TableOp.add 100 peerA]).buckets.length,
      ∀ hj : j < (applyOps (emptyKBucket zeroId 20 0)
        [TableOp.add 100 peerA]).buckets.length,
      ∀ q r, q ∈ ((applyOps (emptyKBucket zeroId 20 0)
          [TableOp.add 100 peerA]).buckets.get ⟨i, hi⟩).peers →
        r ∈ ((applyOps (emptyKBucket zeroId 20 0)
          [TableOp.add 100 peerA]).buckets.get ⟨j, hj⟩).peers →
        q.id = r.id → i = j) ∧
    ((∀ t p, TableOp.add t p ∈ [TableOp.add 100 peerA] → p.id ≠ zeroId) →
      ¬ idInTable (applyOps (emptyKBucket zeroId 20 0)
        [TableOp.add 100 peerA]) zeroId) :=
  applyOps_invariants zeroId 20 0 [TableOp.add 100 peerA] (by decide)

end C0re
